import Mathlib

/-!
# Verification of the loopy conversation loop (`loopy.js`)

A shallow embedding of the persona scheduler, workflow stage machine,
transcript-contamination detector, turn-generation outcome classifier and
conversation-window trimmer of `loopy.js`, together with proofs about them.

Text is modelled as `String` / `List Char` (JavaScript strings restricted to
the code's ASCII-level behaviour: `toLowerCase` and the regex character
classes of the source only act on ASCII).  JSON values read from disk are
modelled by `JsonVal`; JavaScript numbers arising from `Number(...)` coercion
are modelled by `JsNum` (finite rational, `NaN`, `±Infinity`).
-/

namespace Loopy

/-! ## Character helpers -/

/-- The apostrophe character. -/
def aposChar : Char := Char.ofNat 39

/-- The double-quote character. -/
def quoteChar : Char := Char.ofNat 34

/-- The backtick character. -/
def tickChar : Char := Char.ofNat 96

/-- The opening curly bracket character. -/
def openCurly : Char := Char.ofNat 123

/-- The closing curly bracket character. -/
def closeCurly : Char := Char.ofNat 125

/-- JavaScript whitespace (`\s`, and the characters trimmed by
`String.prototype.trim`), restricted to the ASCII range:
space, tab, line feed, carriage return, vertical tab, form feed. -/
def isJsWs (c : Char) : Bool :=
  c = ' ' || c = Char.ofNat 9 || c = Char.ofNat 10 || c = Char.ofNat 13 ||
  c = Char.ofNat 11 || c = Char.ofNat 12

def isAsciiLower (c : Char) : Bool := 'a' ≤ c && c ≤ 'z'

def isAsciiUpper (c : Char) : Bool := 'A' ≤ c && c ≤ 'Z'

def isAsciiLetter (c : Char) : Bool := isAsciiLower c || isAsciiUpper c

def isAsciiDigit (c : Char) : Bool := '0' ≤ c && c ≤ '9'

/-- Regex word character `\w`: `[A-Za-z0-9_]`. -/
def isWordChar (c : Char) : Bool := isAsciiLetter c || isAsciiDigit c || c = '_'

/-- `String.prototype.toLowerCase`, per character (ASCII range). -/
def toLowerJs (c : Char) : Char :=
  if isAsciiUpper c then Char.ofNat (c.toNat + 32) else c

/-- `String.prototype.trim`. -/
def jsTrimL (l : List Char) : List Char :=
  ((l.dropWhile isJsWs).reverse.dropWhile isJsWs).reverse

/-- Worker for `collapseWsL`; the flag records whether the previous
character was whitespace (i.e. we are inside a whitespace run that has
already emitted its single `' '`). -/
def collapseWsGo : List Char → Bool → List Char
  | [], _ => []
  | c :: rest, inRun =>
    if isJsWs c then
      if inRun then collapseWsGo rest true
      else ' ' :: collapseWsGo rest true
    else c :: collapseWsGo rest false

/-- `.replace(/\s+/g, ' ')`: every maximal whitespace run becomes one space. -/
def collapseWsL (l : List Char) : List Char := collapseWsGo l false

/-- Split on a single delimiter character (`String.prototype.split` with a
one-character separator), keeping empty segments. -/
def splitOnCharGo (d : Char) : List Char → List Char → List (List Char)
  | [], acc => [acc.reverse]
  | c :: rest, acc =>
    if c = d then acc.reverse :: splitOnCharGo d rest []
    else splitOnCharGo d rest (c :: acc)

def splitOnChar (d : Char) (l : List Char) : List (List Char) :=
  splitOnCharGo d l []

mutual
/-- Split on maximal runs of delimiter characters (`split(/[..]+/)`).
Collects the current segment in `acc`. -/
def splitRunsGo (p : Char → Bool) : List Char → List Char → List (List Char)
  | [], acc => [acc.reverse]
  | c :: rest, acc =>
    if p c then acc.reverse :: splitRunsSkip p rest
    else splitRunsGo p rest (c :: acc)

/-- State of `splitRunsGo` while consuming a delimiter run. -/
def splitRunsSkip (p : Char → Bool) : List Char → List (List Char)
  | [] => [[]]
  | c :: rest =>
    if p c then splitRunsSkip p rest
    else splitRunsGo p rest [c]
end

def splitRuns (p : Char → Bool) (l : List Char) : List (List Char) :=
  splitRunsGo p l []

/-- Does `pat` occur at the start of `l`? -/
def hasPre [DecidableEq α] : List α → List α → Bool
  | [], _ => true
  | _ :: _, [] => false
  | a :: pa, b :: pb => a = b && hasPre pa pb

/-- `String.prototype.includes`: does `pat` occur anywhere in `l`? -/
def containsSub [DecidableEq α] : List α → List α → Bool
  | [], pat => hasPre pat []
  | l@(_ :: t), pat => hasPre pat l || containsSub t pat

/-- `Array.prototype.slice(-n)` / keeping the last `n` entries. -/
def takeLastN (n : Nat) (l : List α) : List α := l.drop (l.length - n)

/-! ## Data model: turns -/

/-- A conversation turn `{speaker, content}` (`FILE` holds an ordered list
of these). -/
structure Turn where
  speaker : String
  content : String
deriving DecidableEq, Repr

/-- The number of turns whose speaker is a known persona identifier. -/
def countPersonaTurns (personaSpeakers : List String) (turns : List Turn) : Nat :=
  (turns.filter (fun t => personaSpeakers.contains t.speaker)).length

/-! ## Conversation window manager: `trimTurnsByPersonaWindow` -/

/-- Walk a reversed turn list; count down `need` persona turns; once the
count is exhausted return the walked segment (in reversed order), i.e. the
retained window.  `none` means fewer than `need` persona turns exist.
This mirrors the backwards index loop of `trimTurnsByPersonaWindow`:
`need ≤ 1` at a persona turn is the JS `seenPersonaTurns >= maxPersonaTurns`. -/
def cutCountdown (personaSpeakers : List String) : Nat → List Turn → Option (List Turn)
  | _, [] => none
  | need, t :: rest =>
    if personaSpeakers.contains t.speaker then
      if need ≤ 1 then some [t]
      else (cutCountdown personaSpeakers (need - 1) rest).map (t :: ·)
    else (cutCountdown personaSpeakers need rest).map (t :: ·)

/-- `trimTurnsByPersonaWindow(turns, maxPersonaTurns, personaSpeakers)`.
The maximum is an `Int` because the JS value `KEEP_CYCLES * personaSpeakers.size`
is an arbitrary number and the code guards on `maxPersonaTurns <= 0`. -/
def trimTurnsByPersonaWindow (turns : List Turn) (maxPersonaTurns : Int)
    (personaSpeakers : List String) : List Turn :=
  if turns.isEmpty then []
  else if maxPersonaTurns ≤ 0 || personaSpeakers.isEmpty then turns
  else
    match cutCountdown personaSpeakers maxPersonaTurns.toNat turns.reverse with
    | some kept => kept.reverse
    | none => turns

/-! ## Option normalization (`normalizeOption`) -/

/-- The character class of `normalizeOption`'s first replacement,
`/[`"'*_[\](){}]/g` (backtick, double quote, apostrophe, star, underscore,
square brackets, parentheses, curly brackets). -/
def normPunct1 (c : Char) : Bool :=
  c = tickChar || c = quoteChar || c = aposChar || c = '*' || c = '_' ||
  c = '[' || c = ']' || c = '(' || c = ')' || c = openCurly || c = closeCurly

/-- Characters kept by the second replacement `/[^a-z0-9\s-]/g`. -/
def normKeep (c : Char) : Bool :=
  isAsciiLower c || isAsciiDigit c || isJsWs c || c = '-'

/-- `normalizeOption`: lower-case, punctuation to spaces, collapse
whitespace, trim. -/
def normalizeOptionL (l : List Char) : List Char :=
  let s1 := l.map toLowerJs
  let s2 := s1.map (fun c => if normPunct1 c then ' ' else c)
  let s3 := s2.map (fun c => if normKeep c then c else ' ')
  jsTrimL (collapseWsL s3)

def normalizeOption (s : String) : String := String.mk (normalizeOptionL s.data)

/-! ## Transcript contamination detector (`hasTranscriptContamination`) -/

/-- One line of the `TRANSCRIPT_MARKER` regex `/^---$|^\[.*\]:$/m`:
the raw line is exactly `---`, or starts with `[` and ends with `]:`. -/
def transcriptMarkerLine (l : List Char) : Bool :=
  l = ['-', '-', '-'] ||
  (match l with
   | '[' :: rest => hasPre [':', ']'] rest.reverse
   | _ => false)

/-- `TRANSCRIPT_MARKER.test(text)`. -/
def transcriptMarkerTest (text : List Char) : Bool :=
  (splitOnChar (Char.ofNat 10) text).any transcriptMarkerLine

/-- The label character class `[A-Za-z0-9_ ]`. -/
def isLabelClassChar (c : Char) : Bool :=
  isAsciiLetter c || isAsciiDigit c || c = '_' || c = ' '

/-- The bold speaker-label regex `/^\*\*[A-Za-z][A-Za-z0-9_ ]{1,25}\*\*:\s*/`,
tested against a (trimmed) line.  The existential over the quantifier count
`j ∈ [1,25]` is the regex's backtracking. -/
def boldLabelLine (l : List Char) : Bool :=
  match l with
  | '*' :: '*' :: c :: rest =>
    isAsciiLetter c && (List.range 25).any (fun jm =>
      let j := jm + 1
      (rest.take j).length = j && (rest.take j).all isLabelClassChar &&
      hasPre ['*', '*', ':'] (rest.drop j))
  | _ => false

/-- Core of the plain label regex `([A-Za-z][A-Za-z0-9_ ]{1,25}):\s+`,
matched at the start of `l`; returns the captured label.  Larger quantifier
counts are tried first, as regex backtracking does. -/
def labelCaptureCore (l : List Char) : Option (List Char) :=
  match l with
  | c :: rest =>
    if isAsciiLetter c then
      (List.range 25).reverse.findSome? (fun jm =>
        let j := jm + 1
        if (rest.take j).length = j && (rest.take j).all isLabelClassChar &&
           (match rest.drop j with
            | ':' :: w :: _ => isJsWs w
            | _ => false)
        then some (c :: rest.take j) else none)
    else none
  | [] => none

/-- The full label regex `/^(?:[-*]\s+)?([A-Za-z][A-Za-z0-9_ ]{1,25}):\s+/`:
an optional bullet marker `[-*]\s+`, then the label core.  If the bullet
alternative fails the regex retries without it, but a line starting with
`-` or `*` can never match the core, so the fallback is only taken when no
bullet is present. -/
def labelCapture (l : List Char) : Option (List Char) :=
  match l with
  | b :: w :: rest =>
    if (b = '-' || b = '*') && isJsWs w then
      labelCaptureCore (rest.dropWhile isJsWs)
    else labelCaptureCore l
  | _ => labelCaptureCore l

/-- `commonNonSpeakerLabels`: labels never treated as speaker-like. -/
def commonNonSpeakerLabels : List String :=
  ["note", "idea", "ideas", "option", "options", "summary", "action",
   "actions", "pros", "cons", "plan", "result", "output", "reason"]

/-- One DP row step of the Levenshtein `editDistance`: given the previous
row (starting at `prev[j-1]`), the value to the left in the current row, and
the remaining characters of `b`, produce the rest of the current row. -/
def edGo (x : Char) : List Char → List Nat → Nat → List Nat
  | [], _, _ => []
  | y :: bs, prev, left =>
    match prev with
    | p0 :: prest =>
      let pj := prest.headD 0
      let cost := if x = y then 0 else 1
      let cur := Nat.min (pj + 1) (Nat.min (left + 1) (p0 + cost))
      cur :: edGo x bs prest cur
    | [] => []

/-- Outer DP loop of `editDistance` over the characters of `a`. -/
def edLoop (b : List Char) : List Char → List Nat → Nat → List Nat
  | [], prev, _ => prev
  | x :: as, prev, i => edLoop b as ((i + 1) :: edGo x b prev (i + 1)) (i + 1)

/-- The `editDistance` helper of `hasTranscriptContamination`
(standard Levenshtein distance via a DP table). -/
def editDistance (a b : List Char) : Nat :=
  (edLoop b a (List.range (b.length + 1)) 0).getLastD 0

/-- `isSpeakerLikeLabel(labelRaw)`: is the captured label a known speaker
name, or within edit distance 2 of one (for names of length ≥ 3 and length
difference ≤ 2)?  Labels in `commonNonSpeakerLabels` are excluded first,
regardless of distance. -/
def isSpeakerLikeLabel (labelRaw : List Char) (knownSpeakerNames : List String) : Bool :=
  let compact := jsTrimL (collapseWsL labelRaw)
  if compact.isEmpty then false
  else
    let normalized := (compact.map toLowerJs).filter isAsciiLower
    if normalized.isEmpty || commonNonSpeakerLabels.any (fun s => s.data = normalized) then
      false
    else if knownSpeakerNames.any (fun k => k.data = normalized) then true
    else knownSpeakerNames.any (fun k =>
      3 ≤ k.length &&
      ((k.length : Int) - (normalized.length : Int)).natAbs ≤ 2 &&
      editDistance normalized k.data ≤ 2)

/-- The per-line body of `hasTranscriptContamination`'s loop. -/
def contaminatedLine (knownSpeakerNames : List String) (rawLine : List Char) : Bool :=
  let line := jsTrimL rawLine
  if line.isEmpty then false
  else if boldLabelLine line then true
  else
    match labelCapture line with
    | some label => isSpeakerLikeLabel label knownSpeakerNames
    | none => false

/-- `hasTranscriptContamination(text, knownSpeakerNames)`.  The early
`return true`s of the source are the disjunction. -/
def hasTranscriptContamination (text : String) (knownSpeakerNames : List String) : Bool :=
  transcriptMarkerTest text.data ||
  (splitOnChar (Char.ofNat 10) text.data).any (contaminatedLine knownSpeakerNames)

/-! ## JSON values and JavaScript number coercion -/

/-- A parsed JSON value (what `JSON.parse` can hand `sanitizeWorkflowState`).
JSON numbers are modelled as rationals. -/
inductive JsonVal
  | null
  | bool (b : Bool)
  | num (q : Rat)
  | str (s : String)
  | arr (items : List JsonVal)
  | obj (fields : List (String × JsonVal))

/-- A JavaScript number as produced by `Number(...)` coercion: finite,
`NaN` or `±Infinity`. -/
inductive JsNum
  | nan
  | inf
  | negInf
  | fin (q : Rat)
deriving DecidableEq, Repr

/-- Property lookup on a parsed JSON value (object spread semantics: the
last occurrence of a duplicated key wins, as in `JSON.parse`). -/
def getField (v : JsonVal) (key : String) : Option JsonVal :=
  match v with
  | .obj fields => ((fields.filter (fun f => f.1 = key)).getLast?).map (fun f => f.2)
  | _ => none

/-- JavaScript truthiness (falsy JSON values). -/
def jsFalsy : JsonVal → Bool
  | .null => true
  | .bool b => !b
  | .num q => q = 0
  | .str s => s = ""
  | _ => false

/-- `typeof state === 'object'` for a non-null JSON value. -/
def isJsObjectLike : JsonVal → Bool
  | .obj _ => true
  | .arr _ => true
  | _ => false

def digitVal (c : Char) : Nat := c.toNat - '0'.toNat

def digitsToNat (ds : List Char) : Nat :=
  ds.foldl (fun acc c => acc * 10 + digitVal c) 0

def isHexDigit (c : Char) : Bool :=
  isAsciiDigit c || ('a' ≤ c && c ≤ 'f') || ('A' ≤ c && c ≤ 'F')

def hexVal (c : Char) : Nat :=
  if isAsciiDigit c then digitVal c
  else if 'a' ≤ c && c ≤ 'f' then c.toNat - 'a'.toNat + 10
  else c.toNat - 'A'.toNat + 10

def isOctDigit (c : Char) : Bool := '0' ≤ c && c ≤ '7'

def isBinDigit (c : Char) : Bool := c = '0' || c = '1'

def radixToNat (base : Nat) (val : Char → Nat) (ds : List Char) : Nat :=
  ds.foldl (fun acc c => acc * base + val c) 0

/-- The exponent part of a JS decimal literal (`e`/`E`, optional sign,
digits), which must consume the rest of the string.  An absent exponent is
exponent `0`. -/
def parseExpPart : List Char → Option Int
  | [] => some 0
  | e :: r =>
    if e = 'e' || e = 'E' then
      match r with
      | '+' :: ds =>
        if !ds.isEmpty && ds.all isAsciiDigit then some ((digitsToNat ds : Int)) else none
      | '-' :: ds =>
        if !ds.isEmpty && ds.all isAsciiDigit then some (-(digitsToNat ds : Int)) else none
      | ds =>
        if !ds.isEmpty && ds.all isAsciiDigit then some ((digitsToNat ds : Int)) else none
    else none

/-- Value of a decimal literal `intPart . fracPart e exp`. -/
def decValue (intPart fracPart : List Char) (e : Int) : Rat :=
  ((digitsToNat intPart : Rat) + (digitsToNat fracPart : Rat) / (10 : Rat) ^ fracPart.length)
    * (10 : Rat) ^ e

/-- An unsigned JS decimal literal: `digits [. digits] [exp]` or
`. digits [exp]`, consuming the whole string. -/
def parseDecCore (t : List Char) : Option Rat :=
  let intPart := t.takeWhile isAsciiDigit
  let rest1 := t.dropWhile isAsciiDigit
  if intPart.isEmpty then
    match rest1 with
    | '.' :: r2 =>
      let fracPart := r2.takeWhile isAsciiDigit
      let rest2 := r2.dropWhile isAsciiDigit
      if fracPart.isEmpty then none
      else (parseExpPart rest2).map (decValue [] fracPart)
    | _ => none
  else
    match rest1 with
    | '.' :: r2 =>
      let fracPart := r2.takeWhile isAsciiDigit
      let rest2 := r2.dropWhile isAsciiDigit
      (parseExpPart rest2).map (decValue intPart fracPart)
    | rest => (parseExpPart rest).map (decValue intPart [])

/-- A signed mantissa (`Infinity` or a decimal literal). -/
def parseSigned (t : List Char) (neg : Bool) : JsNum :=
  if t = "Infinity".data then (if neg then .negInf else .inf)
  else
    match parseDecCore t with
    | some q => .fin (if neg then -q else q)
    | none => .nan

/-- An unsigned numeric literal: `Infinity`, a `0x`/`0o`/`0b` radix literal,
or a decimal literal. -/
def parseUnsigned (t : List Char) : JsNum :=
  if t = "Infinity".data then .inf
  else
    match t with
    | '0' :: x :: ds =>
      if x = 'x' || x = 'X' then
        if !ds.isEmpty && ds.all isHexDigit then .fin ((radixToNat 16 hexVal ds : Nat) : Rat)
        else .nan
      else if x = 'o' || x = 'O' then
        if !ds.isEmpty && ds.all isOctDigit then .fin ((radixToNat 8 digitVal ds : Nat) : Rat)
        else .nan
      else if x = 'b' || x = 'B' then
        if !ds.isEmpty && ds.all isBinDigit then .fin ((radixToNat 2 digitVal ds : Nat) : Rat)
        else .nan
      else
        match parseDecCore ('0' :: x :: ds) with
        | some q => .fin q
        | none => .nan
    | _ =>
      match parseDecCore t with
      | some q => .fin q
      | none => .nan

/-- `Number(string)` (ECMAScript StringNumericLiteral): trim, empty is `0`,
optional sign on decimal / `Infinity` literals, unsigned radix literals. -/
def jsStrToNum (s : List Char) : JsNum :=
  let t := jsTrimL s
  match t with
  | [] => .fin 0
  | '+' :: r => parseSigned r false
  | '-' :: r => parseSigned r true
  | _ => parseUnsigned t

mutual
/-- `Number(value)` on a JSON value. -/
def jsToNumber : JsonVal → JsNum
  | .null => .fin 0
  | .bool b => .fin (if b then 1 else 0)
  | .num q => .fin q
  | .str s => jsStrToNum s.data
  | .arr l => arrToNumber l
  | .obj _ => .nan

/-- `Number(array)`: the array is stringified with `join(',')` and the
result parsed.  An empty array gives `""` (0); several elements give a
string containing a comma, which never parses; a single element is the
element's own stringification. -/
def arrToNumber : List JsonVal → JsNum
  | [] => .fin 0
  | [x] => elemToNumber x
  | _ :: _ :: _ => .nan

/-- Numeric value of the `join` stringification of a single array element
(`null` joins as `""`; booleans join as `"true"`/`"false"`, which do not
parse as numbers; objects join as `"[object Object]"`). -/
def elemToNumber : JsonVal → JsNum
  | .null => .fin 0
  | .bool _ => .nan
  | .num q => .fin q
  | .str s => jsStrToNum s.data
  | .arr l => arrToNumber l
  | .obj _ => .nan
end

/-- `x || 0` on a possibly-absent field value (absent means the spread kept
the numeric default `0`). -/
def jsOrZero : Option JsonVal → JsonVal
  | none => .num 0
  | some w => if jsFalsy w then .num 0 else w

/-- `Math.max(0, x)`. -/
def jsMax0 : JsNum → JsNum
  | .nan => .nan
  | .inf => .inf
  | .negInf => .fin 0
  | .fin q => .fin (max 0 q)

/-- `x >= q` on a JS number. -/
def jsNumGe (x : JsNum) (q : Rat) : Bool :=
  match x with
  | .fin a => q ≤ a
  | .inf => true
  | _ => false

/-- `x + 1` on a JS number. -/
def jsAdd1 : JsNum → JsNum
  | .nan => .nan
  | .inf => .inf
  | .negInf => .negInf
  | .fin q => .fin (q + 1)

/-! ## Workflow state -/

/-- The five workflow stages (`WORKFLOW_STAGES`). -/
def WORKFLOW_STAGES : List String :=
  ["brainstorm", "cluster", "shortlist", "decide", "next_action"]

/-- The sanitized in-memory workflow state.  Counters are `JsNum` because
`Number(...)` coercion of a corrupted persisted value can produce `NaN` or
`±Infinity`.  (Unknown extra fields kept by the object spread are not
modelled; no reader of the state consults them.) -/
structure WorkflowState where
  stage : String
  cycle_count_in_stage : JsNum
  candidate_options : List String
  shortlist_options : List String
  locked_decision : Option String
  last_transition_reason : String
  decide_window_failures : JsNum
deriving DecidableEq, Repr

/-- `defaultWorkflowState()`. -/
def defaultWorkflowState : WorkflowState :=
  { stage := "brainstorm"
    cycle_count_in_stage := JsNum.fin 0
    candidate_options := []
    shortlist_options := []
    locked_decision := none
    last_transition_reason := "initial"
    decide_window_failures := JsNum.fin 0 }

/-- Worker for `cleanOptionList`'s loop over string items: `seen` is the set
of normalized keys already accepted, `cleaned` the accepted options in
reverse.  The `limit ≤ cleaned'.length` exit is the `break` placed after
the `push`. -/
def cleanStringsGo (limit : Nat) : List String → List (List Char) → List String → List String
  | [], _, cleaned => cleaned.reverse
  | item :: rest, seen, cleaned =>
    let opt := collapseWsL (jsTrimL item.data)
    if opt.length < 8 then cleanStringsGo limit rest seen cleaned
    else
      let key := normalizeOptionL opt
      if key.isEmpty || seen.contains key then cleanStringsGo limit rest seen cleaned
      else
        let cleaned' := String.mk opt :: cleaned
        if limit ≤ cleaned'.length then cleaned'.reverse
        else cleanStringsGo limit rest (key :: seen) cleaned'

/-- `cleanOptionList` on a list already known to be strings (the code skips
non-string items, so the general version filters first). -/
def cleanStrings (value : List String) (limit : Nat) : List String :=
  cleanStringsGo limit value [] []

def asJsonStr : JsonVal → Option String
  | .str s => some s
  | _ => none

/-- `cleanOptionList(value, limit)` on a JSON value: non-arrays give `[]`,
non-string items are skipped. -/
def cleanOptionList (value : JsonVal) (limit : Nat) : List String :=
  match value with
  | .arr items => cleanStrings (items.filterMap asJsonStr) limit
  | _ => []

/-- The `stage` coercion of `sanitizeWorkflowState`: a value in the
five-stage enum is kept, anything else falls back to the default stage. -/
def sanitizeStage (state : JsonVal) : String :=
  match getField state "stage" with
  | some (.str s) => if WORKFLOW_STAGES.contains s then s else defaultWorkflowState.stage
  | some _ => defaultWorkflowState.stage
  | none => defaultWorkflowState.stage

/-- A counter coercion of `sanitizeWorkflowState`:
`Math.max(0, Number(x || 0))`. -/
def sanitizeCounter (state : JsonVal) (key : String) : JsNum :=
  jsMax0 (jsToNumber (jsOrZero (getField state key)))

/-- An option-list coercion of `sanitizeWorkflowState` (`[]` is the spread
default for an absent field). -/
def sanitizeOptions (state : JsonVal) (key : String) (limit : Nat) : List String :=
  cleanOptionList (match getField state key with | some w => w | none => .arr []) limit

/-- The `locked_decision` coercion of `sanitizeWorkflowState`. -/
def sanitizeLocked (state : JsonVal) : Option String :=
  match getField state "locked_decision" with
  | some (.str s) =>
    let t := jsTrimL s.data
    if t.isEmpty then none else some (String.mk t)
  | _ => none

/-- The `last_transition_reason` coercion of `sanitizeWorkflowState`. -/
def sanitizeReason (state : JsonVal) : String :=
  match getField state "last_transition_reason" with
  | some (.str s) =>
    let t := jsTrimL s.data
    if t.isEmpty then defaultWorkflowState.last_transition_reason else String.mk t
  | _ => defaultWorkflowState.last_transition_reason

/-- `sanitizeWorkflowState(state)` on a parsed JSON value.  Field defaults
are those of `defaultWorkflowState` via the object spread `{...base, ...state}`. -/
def sanitizeWorkflowState (state : JsonVal) : WorkflowState :=
  if !isJsObjectLike state then defaultWorkflowState
  else
    { stage := sanitizeStage state
      cycle_count_in_stage := sanitizeCounter state "cycle_count_in_stage"
      candidate_options := sanitizeOptions state "candidate_options" 12
      shortlist_options := sanitizeOptions state "shortlist_options" 3
      locked_decision := sanitizeLocked state
      last_transition_reason := sanitizeReason state
      decide_window_failures := sanitizeCounter state "decide_window_failures" }

/-- `loadWorkflowState()`: a read/parse failure (`none`) falls back to the
default state; a parsed value is sanitized. -/
def loadWorkflowState (parsed : Option JsonVal) : WorkflowState :=
  match parsed with
  | some v => sanitizeWorkflowState v
  | none => defaultWorkflowState

/-! ## Candidate option extraction -/

/-- Bullet line regex `^[-*]\s+(.+)$` on a trimmed line (a trimmed line has
no trailing whitespace, so the greedy `\s+` run is forced). -/
def bulletContent (line : List Char) : Option (List Char) :=
  match line with
  | m :: w :: rest =>
    if (m = '-' || m = '*') && isJsWs w then
      let cap := rest.dropWhile isJsWs
      if cap.isEmpty then none else some cap
    else none
  | _ => none

/-- Numbered line regex `^\d+[.)]\s+(.+)$` on a trimmed line. -/
def numberedContent (line : List Char) : Option (List Char) :=
  let ds := line.takeWhile isAsciiDigit
  let rest := line.dropWhile isAsciiDigit
  if ds.isEmpty then none
  else
    match rest with
    | p :: w :: r =>
      if (p = '.' || p = ')') && isJsWs w then
        let cap := r.dropWhile isJsWs
        if cap.isEmpty then none else some cap
      else none
    | _ => none

/-- `/^no confirmed decisions yet\.?$/i`. -/
def isNoConfirmed (cand : List Char) : Bool :=
  let lc := cand.map toLowerJs
  lc = "no confirmed decisions yet".data || lc = "no confirmed decisions yet.".data

/-- The line-scanning loop of `extractOptionsFromText`. -/
def extractFromLines : List (List Char) → List (List Char)
  | [] => []
  | rawLine :: rest =>
    let line := jsTrimL rawLine
    if line.isEmpty then extractFromLines rest
    else
      let cand :=
        match bulletContent line with
        | some c => some c
        | none => numberedContent line
      match cand with
      | none => extractFromLines rest
      | some c =>
        if isNoConfirmed c then extractFromLines rest
        else if c.length < 8 || 220 < c.length then extractFromLines rest
        else jsTrimL (collapseWsL c) :: extractFromLines rest

def isSentenceDelim (c : Char) : Bool := c = '.' || c = '!' || c = '?'

/-- `/^(i agree|we should choose|no intervention)/i` on a sentence. -/
def sentenceSkip (s : List Char) : Bool :=
  let lc := s.map toLowerJs
  hasPre "i agree".data lc || hasPre "we should choose".data lc ||
  hasPre "no intervention".data lc

/-- The sentence-fallback loop of `extractOptionsFromText` (`push` then
`break` once three sentences are collected). -/
def collectSentences : List (List Char) → Nat → List (List Char)
  | [], _ => []
  | s :: rest, count =>
    if s.length < 25 || 180 < s.length then collectSentences rest count
    else if sentenceSkip s then collectSentences rest count
    else if 3 ≤ count + 1 then [s]
    else s :: collectSentences rest (count + 1)

/-- `extractOptionsFromText(text)`. -/
def extractOptionsFromText (text : List Char) : List (List Char) :=
  let fromLines := extractFromLines (splitOnChar (Char.ofNat 10) text)
  if !fromLines.isEmpty then fromLines
  else
    let sentences :=
      ((splitRuns isSentenceDelim (collapseWsL text)).map jsTrimL).filter
        (fun s => !s.isEmpty)
    collectSentences sentences 0

/-- `collectCandidateOptions(turns, personaSpeakers)`. -/
def collectCandidateOptions (turns : List Turn) (personaSpeakers : List String) : List String :=
  let recent := takeLastN 50 (turns.filter (fun t => personaSpeakers.contains t.speaker))
  let collected := (recent.map (fun t => extractOptionsFromText t.content.data)).flatten
  cleanStrings (collected.map String.mk) 12

/-- `pickTopOptions(options, limit)`. -/
def pickTopOptions (options : List String) (limit : Nat) : List String :=
  cleanStrings options limit

/-! ## Agreement detection (`detectAgreementDecision`) -/

/-- The agreement phrases of the regex
`/\b(i agree|i support|i vote for|i pick|i choose|my vote is|we should choose|i'm for)\b/i`
(lower-cased; the seventh contains an apostrophe). -/
def agreementPhrases : List (List Char) :=
  ["i agree".data, "i support".data, "i vote for".data, "i pick".data,
   "i choose".data, "my vote is".data, "we should choose".data,
   ['i', aposChar, 'm', ' ', 'f', 'o', 'r']]

/-- A `\b` word boundary next to a word character of the phrase: the
neighbouring character (if any) must not be a word character. -/
def boundaryOk : Option Char → Bool
  | none => true
  | some c => !isWordChar c

/-- Does phrase `p` match at this position (with `\b` on both sides)?
`prev` is the character before the position. -/
def phraseMatchesAt (prev : Option Char) (rest : List Char) (p : List Char) : Bool :=
  boundaryOk prev && hasPre p rest && boundaryOk (rest.drop p.length).head?

/-- Scan all positions of the (lower-cased) text for an agreement phrase. -/
def agreementScan : Option Char → List Char → Bool
  | prev, [] => agreementPhrases.any (phraseMatchesAt prev [])
  | prev, c :: tail =>
    agreementPhrases.any (phraseMatchesAt prev (c :: tail)) ||
    agreementScan (some c) tail

/-- `.test` of the agreement regex (case-insensitive). -/
def hasAgreementPhrase (content : List Char) : Bool :=
  agreementScan none (content.map toLowerJs)

/-- One entry of `optionSets`: a shortlist option, its normalized key, and
the distinct supporters collected so far (a JS `Set`, i.e. an
insertion-ordered duplicate-free list). -/
structure OptionTally where
  option : String
  key : List Char
  supporters : List String
deriving DecidableEq, Repr

/-- The initial `optionSets` built from the shortlist. -/
def initTallies (shortlist : List String) : List OptionTally :=
  shortlist.map (fun o => { option := o, key := normalizeOptionL o.data, supporters := [] })

/-- Index of the first option whose (non-empty) key occurs in the
normalized turn content (the inner `for ... break` of the source). -/
def firstMatchIdxGo (contentNorm : List Char) : List OptionTally → Nat → Option Nat
  | [], _ => none
  | t :: rest, i =>
    if !t.key.isEmpty && containsSub contentNorm t.key then some i
    else firstMatchIdxGo contentNorm rest (i + 1)

/-- `Set.add` of the turn's speaker to the tally at index `i`. -/
def addSupporterAt : List OptionTally → Nat → String → List OptionTally
  | [], _, _ => []
  | t :: rest, 0, sp =>
    { t with supporters := if t.supporters.contains sp then t.supporters
                           else t.supporters ++ [sp] } :: rest
  | t :: rest, i + 1, sp => t :: addSupporterAt rest i sp

/-- The per-turn body of `detectAgreementDecision`'s loop. -/
def tallyTurn (tallies : List OptionTally) (turn : Turn) : List OptionTally :=
  let content := jsTrimL turn.content.data
  if content.isEmpty then tallies
  else if !hasAgreementPhrase content then tallies
  else
    match firstMatchIdxGo (normalizeOptionL content) tallies 0 with
    | some i => addSupporterAt tallies i turn.speaker
    | none => tallies

/-- The most recent `n` persona-authored turns
(`turns.filter(...).slice(-n)`). -/
def recentPersonaTurns (turns : List Turn) (personaSpeakers : List String) (n : Nat) : List Turn :=
  takeLastN n (turns.filter (fun t => personaSpeakers.contains t.speaker))

/-- The `optionSets` after scanning the recent persona turns. -/
def agreementTallies (turns : List Turn) (personaSpeakers : List String)
    (shortlist : List String) : List OptionTally :=
  (recentPersonaTurns turns personaSpeakers 40).foldl tallyTurn (initTallies shortlist)

/-- The winner scan: the first option with the most supporters, among those
with at least two (later options replace the winner only when strictly
larger). -/
def winnerFold (tallies : List OptionTally) : Option OptionTally :=
  tallies.foldl (fun acc t =>
    if 2 ≤ t.supporters.length then
      match acc with
      | none => some t
      | some w => if w.supporters.length < t.supporters.length then some t else acc
    else acc) none

/-- `detectAgreementDecision(turns, personaSpeakers, shortlistOptions)`. -/
def detectAgreementDecision (turns : List Turn) (personaSpeakers : List String)
    (shortlistOptions : List String) : Option String :=
  if (recentPersonaTurns turns personaSpeakers 40).isEmpty then none
  else (winnerFold (agreementTallies turns personaSpeakers shortlistOptions)).map
    (fun t => t.option)

/-! ## Workflow stage evaluator (`evaluateWorkflowState`) -/

/-- `evaluateWorkflowState(state, turns, personaSpeakers)`.  The `reason`
array of the source only ever receives one entry (in the `cluster` branch),
where it is written directly to `last_transition_reason`. -/
def evaluateWorkflowState (state : JsonVal) (turns : List Turn)
    (personaSpeakers : List String) : WorkflowState :=
  let next0 := sanitizeWorkflowState state
  let next := { next0 with candidate_options := collectCandidateOptions turns personaSpeakers }
  if next.stage = "brainstorm" then
    if 5 ≤ next.candidate_options.length then
      { next with
        stage := "cluster"
        cycle_count_in_stage := JsNum.fin 0
        last_transition_reason := "enough ideas captured for clustering" }
    else next
  else if next.stage = "cluster" then
    if 4 ≤ next.candidate_options.length || jsNumGe next.cycle_count_in_stage 2 then
      let next1 := { next with shortlist_options := pickTopOptions next.candidate_options 3 }
      if 2 ≤ next1.shortlist_options.length then
        { next1 with
          stage := "shortlist"
          cycle_count_in_stage := JsNum.fin 0
          last_transition_reason := "clustered ideas into shortlist" }
      else { next1 with last_transition_reason := "not enough strong options for shortlist" }
    else next
  else if next.stage = "shortlist" then
    let next1 :=
      if next.shortlist_options.length < 2 then
        { next with shortlist_options := pickTopOptions next.candidate_options 3 }
      else next
    if 2 ≤ next1.shortlist_options.length && jsNumGe next1.cycle_count_in_stage 1 then
      { next1 with
        stage := "decide"
        cycle_count_in_stage := JsNum.fin 0
        decide_window_failures := JsNum.fin 0
        last_transition_reason := "ready for decision vote" }
    else next1
  else if next.stage = "decide" then
    let next1 :=
      if next.shortlist_options.length < 2 then
        { next with shortlist_options := pickTopOptions next.candidate_options 3 }
      else next
    match detectAgreementDecision turns personaSpeakers next1.shortlist_options with
    | some winner =>
      { next1 with
        locked_decision := some winner
        stage := "next_action"
        cycle_count_in_stage := JsNum.fin 0
        last_transition_reason := "two explicit agreements reached" }
    | none =>
      if jsNumGe next1.cycle_count_in_stage 1 then
        let next2 := { next1 with decide_window_failures := jsAdd1 next1.decide_window_failures }
        let forced := pickTopOptions
          (if 0 < next2.shortlist_options.length then next2.shortlist_options
           else next2.candidate_options) 2
        let next3 :=
          if 2 ≤ forced.length then { next2 with shortlist_options := forced } else next2
        { next3 with
          cycle_count_in_stage := JsNum.fin 0
          last_transition_reason := "forced binary choice after stalled decision window" }
      else next1
  else next

/-! ## Turn generation outcome (`generateAttempt`) -/

/-- The outcome classification of one generation attempt (the `toolCalls`
payload is orthogonal to acceptance and not modelled). -/
inductive AttemptOutcome
  | rejected (reason : String)
  | accepted (text : String)
deriving DecidableEq, Repr

/-- The decision logic of `generateAttempt` once the streamed response has
been accumulated into `fullResponse`: empty (after trimming) is rejected as
`empty-response`; otherwise, when `DISCARD_MODE === 'transcript_only'`,
contaminated text is rejected as `multi-speaker-transcript`; anything else
is accepted (with the trimmed text). -/
def classifyAttempt (fullResponse : String) (knownSpeakerNames : List String)
    (discardMode : String) : AttemptOutcome :=
  let trimmed := String.mk (jsTrimL fullResponse.data)
  if trimmed = "" then .rejected "empty-response"
  else if discardMode = "transcript_only" &&
      hasTranscriptContamination fullResponse knownSpeakerNames then
    .rejected "multi-speaker-transcript"
  else .accepted trimmed

/-! ## Persona scheduler (`shufflePersonas`) -/

/-- Swap the entries at indices `i` and `j`
(`[a[i], a[j]] = [a[j], a[i]]`). -/
def swapL (l : List String) (i j : Nat) : List String :=
  (l.set i (l.getD j "")).set j (l.getD i "")

/-- The Fisher–Yates loop `for (i = len-1; i > 0; i--)`: `rand i` stands
for the stream of `Math.random()` draws, reduced mod `i+1` exactly as
`Math.floor(Math.random() * (i + 1))` lands in `[0, i]`. -/
def fyAux (rand : Nat → Nat) : Nat → List String → List String
  | 0, l => l
  | i + 1, l => fyAux rand i (swapL l (i + 1) (rand (i + 1) % (i + 2)))

def fyShuffle (rand : Nat → Nat) (l : List String) : List String :=
  match l.length with
  | 0 => l
  | n + 1 => fyAux rand n l

/-- JS `Array.prototype.indexOf` (−1 when absent). -/
def jsIndexOf [DecidableEq α] (a : α) : List α → Int
  | [] => -1
  | x :: t =>
    if x = a then 0
    else
      let r := jsIndexOf a t
      if r < 0 then -1 else r + 1

/-- The comparator `(a, b) => specialOrder.indexOf(a) - specialOrder.indexOf(b)`
as a boolean "less or equal". -/
def specialCmpLe (specialOrder : List String) (a b : String) : Bool :=
  jsIndexOf a specialOrder ≤ jsIndexOf b specialOrder

/-- `shufflePersonas(allPersonas, specialOrder)`: split off the special
personas, shuffle the regular ones, and append the specials sorted by their
position in `specialOrder` (JS `sort` is stable; `mergeSort` models it). -/
def shufflePersonas (rand : Nat → Nat) (allPersonas specialOrder : List String) : List String :=
  let special := allPersonas.filter (fun p => specialOrder.contains p)
  let regular := allPersonas.filter (fun p => !specialOrder.contains p)
  fyShuffle rand regular ++ special.mergeSort (specialCmpLe specialOrder)

/-! ## Characterizations used by the proofs

These definitions are not translations of source functions; they are proof
devices, each related to the source translation by a proved lemma. -/

/-- The unlimited acceptance stream of `cleanOptionList`'s loop: the options
it would accept, in order, with no `limit` cut-off
(see `cleanStringsGo_eq_take`). -/
def cleanAccept : List String → List (List Char) → List String
  | [], _ => []
  | item :: rest, seen =>
    let opt := collapseWsL (jsTrimL item.data)
    if opt.length < 8 then cleanAccept rest seen
    else
      let key := normalizeOptionL opt
      if key.isEmpty || seen.contains key then cleanAccept rest seen
      else String.mk opt :: cleanAccept rest (key :: seen)

/-- A string as stored by `cleanOptionList`: fixed under trim-and-collapse,
at least 8 characters, and with a non-empty normalization key. -/
def cleanElem (o : String) : Prop :=
  collapseWsL (jsTrimL o.data) = o.data ∧ ¬ o.data.length < 8 ∧
  normalizeOptionL o.data ≠ []

/-- Every whitespace character is a plain space. -/
def allWsSpace (l : List Char) : Bool := l.all (fun c => !isJsWs c || c = ' ')

/-- No two adjacent characters are both whitespace. -/
def noAdjWs : List Char → Bool
  | [] => true
  | [_] => true
  | c :: d :: rest => !(isJsWs c && isJsWs d) && noAdjWs (d :: rest)

/-- A turn that enters agreement counting: non-empty trimmed content that
carries an agreement phrase (the two `continue` guards of
`detectAgreementDecision`'s loop). -/
def qualifiesAgreement (t : Turn) : Bool :=
  !(jsTrimL t.content.data).isEmpty && hasAgreementPhrase (jsTrimL t.content.data)

/-- The index of the single option a qualifying turn is credited to: the
first tally whose non-empty key occurs in the turn's normalized content. -/
def creditIndexOn (ts : List OptionTally) (t : Turn) : Option Nat :=
  if qualifiesAgreement t then
    firstMatchIdxGo (normalizeOptionL (jsTrimL t.content.data)) ts 0
  else none

/-! ## Lemmas about the conversation window -/

theorem countPersonaTurns_reverse (ps : List String) (l : List Turn) :
    countPersonaTurns ps l.reverse = countPersonaTurns ps l := by
  simp [countPersonaTurns, List.filter_reverse]

theorem countPersonaTurns_cons (ps : List String) (t : Turn) (l : List Turn) :
    countPersonaTurns ps (t :: l) =
      (if t.speaker ∈ ps then 1 else 0) + countPersonaTurns ps l := by
  by_cases h : t.speaker ∈ ps
  · simp [countPersonaTurns, List.filter_cons, h]
    omega
  · simp [countPersonaTurns, List.filter_cons, h]

theorem cutCountdown_some_spec (ps : List String) :
    ∀ (l : List Turn) (need : Nat) (kept : List Turn), 1 ≤ need →
      cutCountdown ps need l = some kept →
      countPersonaTurns ps kept = need ∧ ∃ rest, l = kept ++ rest := by
  intro l
  induction l with
  | nil => intro need kept _ h; simp [cutCountdown] at h
  | cons t rest ih =>
    intro need kept hneed h
    by_cases hsp : t.speaker ∈ ps
    · by_cases h1 : need ≤ 1
      · have hn1 : need = 1 := le_antisymm h1 hneed
        simp [cutCountdown, hsp, h1] at h
        subst h
        refine ⟨?_, rest, rfl⟩
        simp [countPersonaTurns_cons, hsp, countPersonaTurns, hn1]
      · simp [cutCountdown, hsp, h1] at h
        obtain ⟨kept', hk', hkeq⟩ := h
        have hneed' : 1 ≤ need - 1 := by omega
        obtain ⟨hcount, r', hr'⟩ := ih (need - 1) kept' hneed' hk'
        subst hkeq
        refine ⟨?_, r', by simp [hr']⟩
        rw [countPersonaTurns_cons, hcount]
        simp [hsp]
        omega
    · simp [cutCountdown, hsp] at h
      obtain ⟨kept', hk', hkeq⟩ := h
      obtain ⟨hcount, r', hr'⟩ := ih need kept' hneed hk'
      subst hkeq
      refine ⟨?_, r', by simp [hr']⟩
      rw [countPersonaTurns_cons, hcount]
      simp [hsp]

theorem cutCountdown_none_spec (ps : List String) :
    ∀ (l : List Turn) (need : Nat), 1 ≤ need →
      cutCountdown ps need l = none →
      countPersonaTurns ps l < need := by
  intro l
  induction l with
  | nil => intro need hneed _; simpa [countPersonaTurns] using hneed
  | cons t rest ih =>
    intro need hneed h
    by_cases hsp : t.speaker ∈ ps
    · by_cases h1 : need ≤ 1
      · simp [cutCountdown, hsp, h1] at h
      · simp [cutCountdown, hsp, h1] at h
        have := ih (need - 1) (by omega) h
        rw [countPersonaTurns_cons]
        simp [hsp]
        omega
    · simp [cutCountdown, hsp] at h
      have := ih need hneed h
      rw [countPersonaTurns_cons]
      simp [hsp]
      omega

/-- C1 (corrected): for a positive maximum, the trimmed history contains at
most `maxPersonaTurns` persona turns, and is a contiguous suffix of the
input (so every turn — persona or not — at or after the cut point is kept,
in order).  For `maxPersonaTurns ≤ 0` the code disables trimming
(see `trim_zero_max_keeps_excess_counterexample`). -/
theorem trim_bounds_persona_window (turns : List Turn) (maxPersonaTurns : Int)
    (ps : List String) (hmax : 1 ≤ maxPersonaTurns) :
    countPersonaTurns ps (trimTurnsByPersonaWindow turns maxPersonaTurns ps) ≤
      maxPersonaTurns.toNat ∧
    ∃ k, trimTurnsByPersonaWindow turns maxPersonaTurns ps = turns.drop k := by
  unfold trimTurnsByPersonaWindow
  by_cases hempty : turns.isEmpty
  · simp [hempty]
    have : turns = [] := List.isEmpty_iff.mp hempty
    exact ⟨by simp [countPersonaTurns], 0, by simp [this]⟩
  · have hmax0 : ¬ maxPersonaTurns ≤ 0 := by omega
    by_cases hps : ps.isEmpty
    · have hps' : ps = [] := List.isEmpty_iff.mp hps
      simp [hempty, hmax0, hps]
      exact ⟨by simp [hps', countPersonaTurns, List.filter_eq_nil_iff], 0, by simp⟩
    · simp [hempty, hmax0, hps]
      have hneed : 1 ≤ maxPersonaTurns.toNat := by omega
      cases hcut : cutCountdown ps maxPersonaTurns.toNat turns.reverse with
      | some kept =>
        obtain ⟨hcount, rest, hrest⟩ :=
          cutCountdown_some_spec ps turns.reverse maxPersonaTurns.toNat kept hneed hcut
        constructor
        · rw [countPersonaTurns_reverse, hcount]
        · refine ⟨rest.reverse.length, ?_⟩
          have : turns = rest.reverse ++ kept.reverse := by
            have := congrArg List.reverse hrest
            simpa using this
          rw [this, List.drop_left]
      | none =>
        have := cutCountdown_none_spec ps turns.reverse maxPersonaTurns.toNat hneed hcut
        rw [countPersonaTurns_reverse] at this
        exact ⟨le_of_lt this, 0, by simp⟩

/-- Witness for C1's theorem at a concrete input: a window of one persona
turn over a history with a workflow turn and two persona turns. -/
theorem trim_bounds_persona_window_witness :
    countPersonaTurns ["Alice", "Bob"]
      (trimTurnsByPersonaWindow
        [⟨"Workflow", "w"⟩, ⟨"Alice", "a"⟩, ⟨"Bob", "b"⟩] 1 ["Alice", "Bob"]) ≤
      (1 : Int).toNat ∧
    ∃ k, trimTurnsByPersonaWindow
        [⟨"Workflow", "w"⟩, ⟨"Alice", "a"⟩, ⟨"Bob", "b"⟩] 1 ["Alice", "Bob"] =
      ([⟨"Workflow", "w"⟩, ⟨"Alice", "a"⟩, ⟨"Bob", "b"⟩] : List Turn).drop k :=
  trim_bounds_persona_window _ _ _ (by decide)

/-- C1 counterexample to the claim as stated (for *every* maximum): with
`maxPersonaTurns = 0` the code returns the history unchanged, so its
persona-turn count (here 1) exceeds the configured maximum (0). -/
theorem trim_zero_max_keeps_excess_counterexample :
    ¬ (countPersonaTurns ["Alice"]
        (trimTurnsByPersonaWindow [⟨"Alice", "hi"⟩] 0 ["Alice"]) ≤ (0 : Int).toNat) := by
  decide

/-! ## Contamination detector theorems -/

/-- C5: any text with a line whose trimmed form begins with a bold-style
`**Name**:` label is classified as contaminated, for every known-identifier
set.  The witness instantiates this at the spec's example text
`"**Alice**:\nHello\n\n**Bob**:\nHi"` with identifiers `{alice, bob}`. -/
theorem bold_label_means_contaminated (text : String) (ks : List String)
    (h : ∃ line ∈ splitOnChar (Char.ofNat 10) text.data,
      boldLabelLine (jsTrimL line) = true) :
    hasTranscriptContamination text ks = true := by
  obtain ⟨line, hmem, hbold⟩ := h
  have hne : (jsTrimL line).isEmpty = false := by
    cases hl : jsTrimL line with
    | nil => rw [hl] at hbold; simp [boldLabelLine] at hbold
    | cons a t => simp
  have hcl : contaminatedLine ks line = true := by
    simp only [contaminatedLine, hne, hbold]
    simp
  have hany : (splitOnChar (Char.ofNat 10) text.data).any (contaminatedLine ks) = true :=
    List.any_eq_true.mpr ⟨line, hmem, hcl⟩
  unfold hasTranscriptContamination
  simp [hany]

/-- Witness for C5 at the spec's concrete example. -/
theorem bold_label_means_contaminated_witness :
    hasTranscriptContamination "**Alice**:\nHello\n\n**Bob**:\nHi" ["alice", "bob"] = true :=
  bold_label_means_contaminated _ _ ⟨"**Alice**:".data, by decide, by decide⟩

/-- C6: a label whose normalized form (whitespace-collapsed, trimmed,
lower-cased, letters only) lies in the excluded `commonNonSpeakerLabels`
set is never treated as speaker-like, for every known-identifier set and
regardless of edit distance; and the spec's example
`"Plan: ship by Friday."` with identifiers `{alice, bob}` is not
contaminated. -/
theorem common_label_never_speaker_like (labelRaw : List Char) (ks : List String)
    (h : commonNonSpeakerLabels.any
        (fun s => s.data =
          ((jsTrimL (collapseWsL labelRaw)).map toLowerJs).filter isAsciiLower) = true) :
    isSpeakerLikeLabel labelRaw ks = false ∧
    hasTranscriptContamination "Plan: ship by Friday." ["alice", "bob"] = false := by
  refine ⟨?_, by decide⟩
  unfold isSpeakerLikeLabel
  by_cases hc : (jsTrimL (collapseWsL labelRaw)).isEmpty
  · simp [hc]
  · simp only [hc, h]
    simp

/-- Witness for C6 at the spec's concrete label `Plan`. -/
theorem common_label_never_speaker_like_witness :
    isSpeakerLikeLabel "Plan".data ["alice", "bob"] = false ∧
    hasTranscriptContamination "Plan: ship by Friday." ["alice", "bob"] = false :=
  common_label_never_speaker_like "Plan".data ["alice", "bob"] (by decide)

/-! ## Generation-attempt outcome theorems -/

/-- C7 (corrected): under the default discard mode `transcript_only`, an
attempt whose accumulated text trims to empty is rejected with reason
`empty-response`; a non-empty but contaminated text is rejected with reason
`multi-speaker-transcript` (not `transcript-contamination` as the claim
says — see `contamination_reason_name_counterexample`); anything else is
accepted with the trimmed text. -/
theorem attempt_outcome_classification (resp : String) (ks : List String) :
    (jsTrimL resp.data = [] →
      classifyAttempt resp ks "transcript_only" = .rejected "empty-response") ∧
    (jsTrimL resp.data ≠ [] → hasTranscriptContamination resp ks = true →
      classifyAttempt resp ks "transcript_only" = .rejected "multi-speaker-transcript") ∧
    (jsTrimL resp.data ≠ [] → hasTranscriptContamination resp ks = false →
      classifyAttempt resp ks "transcript_only" = .accepted (String.mk (jsTrimL resp.data))) := by
  unfold classifyAttempt
  by_cases h0 : String.mk (jsTrimL resp.data) = ""
  · have h0' : jsTrimL resp.data = [] := by simpa [String.ext_iff] using h0
    exact ⟨fun _ => by simp [h0], fun hne _ => absurd h0' hne, fun hne _ => absurd h0' hne⟩
  · have h0' : jsTrimL resp.data ≠ [] := fun hh => h0 (by simp [String.ext_iff, hh])
    refine ⟨fun hh => absurd hh h0', fun _ hcont => ?_, fun _ hcont => ?_⟩
    · simp [h0, hcont]
    · simp [h0, hcont]

/-- Witness for C7's theorem: a clean response is accepted trimmed. -/
theorem attempt_outcome_classification_witness :
    classifyAttempt "hello" [] "transcript_only" =
      .accepted (String.mk (jsTrimL "hello".data)) :=
  (attempt_outcome_classification "hello" []).2.2 (by decide) (by decide)

/-- C7 counterexample to the claim as stated: a contaminated non-empty
response is rejected with the reason string `multi-speaker-transcript`,
which differs from the claim's `transcript-contamination`. -/
theorem contamination_reason_name_counterexample :
    classifyAttempt "**Alice**:\nhi" ["alice"] "transcript_only" =
      .rejected "multi-speaker-transcript" ∧
    ("multi-speaker-transcript" : String) ≠ "transcript-contamination" := by
  decide

/-! ## Whitespace normal forms and `cleanOptionList` lemmas -/

theorem collapseWsGo_head_not_ws :
    ∀ (l : List Char) (c : Char), (collapseWsGo l true).head? = some c → isJsWs c = false := by
  intro l
  induction l with
  | nil => intro c h; simp [collapseWsGo] at h
  | cons a rest ih =>
    intro c h
    by_cases ha : isJsWs a = true
    · rw [collapseWsGo, if_pos ha, if_pos rfl] at h
      exact ih c h
    · rw [collapseWsGo, if_neg ha] at h
      simp at h
      subst h
      simpa using ha

theorem allWsSpace_collapseWsGo : ∀ (l : List Char) (b : Bool),
    allWsSpace (collapseWsGo l b) = true := by
  intro l
  induction l with
  | nil => intro b; simp [collapseWsGo, allWsSpace]
  | cons a rest ih =>
    intro b
    by_cases ha : isJsWs a = true
    · cases b with
      | true => rw [collapseWsGo, if_pos ha, if_pos rfl]; exact ih true
      | false =>
        rw [collapseWsGo, if_pos ha, if_neg (by simp)]
        have := ih true
        simp [allWsSpace] at this ⊢
        exact this
    · rw [collapseWsGo, if_neg ha]
      have := ih false
      simp [allWsSpace] at this ⊢
      exact ⟨Or.inl (by simpa using ha), this⟩

theorem noAdjWs_cons_tail (a : Char) (rest : List Char)
    (h : noAdjWs (a :: rest) = true) : noAdjWs rest = true := by
  cases rest with
  | nil => simp [noAdjWs]
  | cons d r => rw [noAdjWs] at h; exact ((Bool.and_eq_true _ _) ▸ h).2

theorem noAdjWs_cons_of_head (a : Char) (rest : List Char)
    (hd : ∀ c, rest.head? = some c → (isJsWs a && isJsWs c) = false)
    (h : noAdjWs rest = true) : noAdjWs (a :: rest) = true := by
  cases rest with
  | nil => simp [noAdjWs]
  | cons d r =>
    rw [noAdjWs]
    exact (Bool.and_eq_true _ _) ▸ ⟨by simp [hd d rfl], h⟩

theorem noAdjWs_collapseWsGo : ∀ (l : List Char) (b : Bool),
    noAdjWs (collapseWsGo l b) = true := by
  intro l
  induction l with
  | nil => intro b; simp [collapseWsGo, noAdjWs]
  | cons a rest ih =>
    intro b
    by_cases ha : isJsWs a = true
    · cases b with
      | true => rw [collapseWsGo, if_pos ha, if_pos rfl]; exact ih true
      | false =>
        rw [collapseWsGo, if_pos ha, if_neg (by simp)]
        refine noAdjWs_cons_of_head _ _ (fun c hc => ?_) (ih true)
        have := collapseWsGo_head_not_ws rest c hc
        simp [this]
    · rw [collapseWsGo, if_neg ha]
      refine noAdjWs_cons_of_head _ _ (fun c _ => ?_) (ih false)
      simp at ha
      simp [ha]

theorem collapseWsGo_true_eq_false (l : List Char)
    (h : ∀ c, l.head? = some c → isJsWs c = false) :
    collapseWsGo l true = collapseWsGo l false := by
  cases l with
  | nil => rfl
  | cons a rest =>
    have := h a rfl
    rw [collapseWsGo, collapseWsGo, if_neg (by simp [this]), if_neg (by simp [this])]

theorem collapseWsL_eq_self : ∀ (l : List Char),
    allWsSpace l = true → noAdjWs l = true → collapseWsL l = l := by
  intro l
  induction l with
  | nil => intro _ _; rfl
  | cons a rest ih =>
    intro hsp hadj
    have hsp' : allWsSpace rest = true := by
      simp [allWsSpace] at hsp ⊢; exact hsp.2
    have hadj' : noAdjWs rest = true := noAdjWs_cons_tail a rest hadj
    by_cases ha : isJsWs a = true
    · have haSp : a = ' ' := by
        simp [allWsSpace, ha] at hsp
        exact hsp.1
      have hhead : ∀ c, rest.head? = some c → isJsWs c = false := by
        intro c hc
        cases rest with
        | nil => simp at hc
        | cons d r =>
          rw [noAdjWs] at hadj
          have hfst := ((Bool.and_eq_true _ _) ▸ hadj).1
          simp at hc
          subst hc
          simp [ha] at hfst
          simpa using hfst
      unfold collapseWsL at ih ⊢
      rw [collapseWsGo, if_pos ha, if_neg (by simp),
        collapseWsGo_true_eq_false rest hhead, ih hsp' hadj', haSp]
    · unfold collapseWsL at ih ⊢
      rw [collapseWsGo, if_neg ha, ih hsp' hadj']

theorem getLast?_cons_of_getLast?_some {t : List Char} {c : Char} (a : Char)
    (h : t.getLast? = some c) : (a :: t).getLast? = some c := by
  cases t with
  | nil => simp at h
  | cons b r => rw [List.getLast?_cons_cons]; exact h

theorem getLast?_dropWhile (p : Char → Bool) :
    ∀ (l : List Char), List.dropWhile p l ≠ [] →
      (List.dropWhile p l).getLast? = l.getLast? := by
  intro l
  induction l with
  | nil => intro h; simp at h
  | cons a rest ih =>
    intro h
    by_cases ha : p a = true
    · rw [List.dropWhile_cons, if_pos ha] at h ⊢
      have hrest : rest ≠ [] := by
        intro he; rw [he] at h; simp at h
      cases rest with
      | nil => exact absurd rfl hrest
      | cons b r => rw [List.getLast?_cons_cons]; exact ih h
    · rw [List.dropWhile_cons, if_neg ha]

theorem head?_dropWhile_isJsWs (l : List Char) (c : Char)
    (h : (List.dropWhile isJsWs l).head? = some c) : isJsWs c = false := by
  have := List.head?_dropWhile_not isJsWs l
  rw [h] at this
  exact this

theorem jsTrimL_head_not_ws (l : List Char) (c : Char)
    (h : (jsTrimL l).head? = some c) : isJsWs c = false := by
  unfold jsTrimL at h
  rw [List.head?_reverse] at h
  have hne : List.dropWhile isJsWs (List.dropWhile isJsWs l).reverse ≠ [] := by
    intro he; rw [he] at h; simp at h
  rw [getLast?_dropWhile isJsWs _ hne, List.getLast?_reverse] at h
  exact head?_dropWhile_isJsWs l c h

theorem jsTrimL_getLast_not_ws (l : List Char) (c : Char)
    (h : (jsTrimL l).getLast? = some c) : isJsWs c = false := by
  unfold jsTrimL at h
  rw [List.getLast?_reverse] at h
  exact head?_dropWhile_isJsWs _ c h

theorem dropWhile_eq_self_of_head (p : Char → Bool) (l : List Char)
    (h : ∀ c, l.head? = some c → p c = false) : List.dropWhile p l = l := by
  cases l with
  | nil => rfl
  | cons a rest => rw [List.dropWhile_cons, if_neg (by simp [h a rfl])]

theorem jsTrimL_eq_self (l : List Char)
    (hh : ∀ c, l.head? = some c → isJsWs c = false)
    (hl : ∀ c, l.getLast? = some c → isJsWs c = false) : jsTrimL l = l := by
  unfold jsTrimL
  rw [dropWhile_eq_self_of_head isJsWs l hh]
  rw [dropWhile_eq_self_of_head isJsWs l.reverse
    (fun c hc => hl c (by rwa [List.head?_reverse] at hc))]
  exact List.reverse_reverse l

theorem collapseWsGo_getLast :
    ∀ (l : List Char) (b : Bool) (c : Char), l.getLast? = some c → isJsWs c = false →
      (collapseWsGo l b).getLast? = some c := by
  intro l
  induction l with
  | nil => intro b c h _; simp at h
  | cons a rest ih =>
    intro b c h hc
    cases rest with
    | nil =>
      simp at h
      subst h
      rw [collapseWsGo, if_neg (by simp [hc])]
      rfl
    | cons d r =>
      rw [List.getLast?_cons_cons] at h
      have htail : ∀ b', (collapseWsGo (d :: r) b').getLast? = some c :=
        fun b' => ih b' c h hc
      by_cases ha : isJsWs a = true
      · cases b with
        | true => rw [collapseWsGo, if_pos ha, if_pos rfl]; exact htail true
        | false =>
          rw [collapseWsGo, if_pos ha, if_neg (by simp)]
          exact getLast?_cons_of_getLast?_some ' ' (htail true)
      · rw [collapseWsGo, if_neg ha]
        exact getLast?_cons_of_getLast?_some a (htail false)

/-- Trim-then-collapse is idempotent: re-cleaning a stored option is the
identity.  This is why `cleanOptionList` output survives re-cleaning. -/
theorem clean_fixed_point (x : List Char) :
    collapseWsL (jsTrimL (collapseWsL (jsTrimL x))) = collapseWsL (jsTrimL x) := by
  have hwhead : ∀ c, (collapseWsL (jsTrimL x)).head? = some c → isJsWs c = false := by
    intro c hc
    cases htr : jsTrimL x with
    | nil => rw [htr] at hc; simp [collapseWsL, collapseWsGo] at hc
    | cons a rest =>
      have hahead : isJsWs a = false := jsTrimL_head_not_ws x a (by rw [htr]; rfl)
      rw [htr] at hc
      unfold collapseWsL at hc
      rw [collapseWsGo, if_neg (by simp [hahead])] at hc
      simp at hc
      subst hc
      exact hahead
  have hwlast : ∀ c, (collapseWsL (jsTrimL x)).getLast? = some c → isJsWs c = false := by
    intro c hc
    rcases hlast : (jsTrimL x).getLast? with _ | d
    · have hnil : jsTrimL x = [] := by
        cases htr : jsTrimL x with
        | nil => rfl
        | cons a rest => rw [htr] at hlast; simp at hlast
      rw [hnil] at hc
      simp [collapseWsL, collapseWsGo] at hc
    · have hd : isJsWs d = false := jsTrimL_getLast_not_ws x d hlast
      have hgl := collapseWsGo_getLast (jsTrimL x) false d hlast hd
      unfold collapseWsL at hc
      rw [hgl] at hc
      cases hc
      exact hd
  rw [jsTrimL_eq_self _ hwhead hwlast]
  exact collapseWsL_eq_self _ (allWsSpace_collapseWsGo _ _) (noAdjWs_collapseWsGo _ _)

theorem cleanStringsGo_eq_take (limit : Nat) :
    ∀ (rest : List String) (seen : List (List Char)) (cleaned : List String),
      cleaned.length < limit →
      cleanStringsGo limit rest seen cleaned =
        (cleaned.reverse ++ cleanAccept rest seen).take limit := by
  intro rest
  induction rest with
  | nil =>
    intro seen cleaned hlt
    rw [cleanStringsGo, cleanAccept]
    rw [List.append_nil, List.take_of_length_le (by simpa using le_of_lt hlt)]
  | cons item rest ih =>
    intro seen cleaned hlt
    rw [cleanStringsGo, cleanAccept]
    by_cases h8 : (collapseWsL (jsTrimL item.data)).length < 8
    · simp only [h8, if_pos]
      exact ih seen cleaned hlt
    · simp only [h8, if_neg, ite_false]
      by_cases hkey : ((normalizeOptionL (collapseWsL (jsTrimL item.data))).isEmpty ||
          seen.contains (normalizeOptionL (collapseWsL (jsTrimL item.data)))) = true
      · simp only [hkey, if_pos]
        exact ih seen cleaned hlt
      · simp only [hkey, if_neg, Bool.not_eq_true, ite_false]
        by_cases hstop : limit ≤ (String.mk (collapseWsL (jsTrimL item.data)) :: cleaned).length
        · have hlim : limit = cleaned.length + 1 := by
            simp at hstop; omega
          simp only [hstop, if_pos]
          rw [hlim]
          have : cleaned.length + 1 = cleaned.reverse.length + 1 := by simp
          rw [this, List.take_append]
          simp
        · simp only [hstop, if_neg, ite_false]
          rw [ih (normalizeOptionL (collapseWsL (jsTrimL item.data)) :: seen)
            (String.mk (collapseWsL (jsTrimL item.data)) :: cleaned) (by simp at hstop ⊢; omega)]
          simp

theorem cleanStrings_eq_take (l : List String) (limit : Nat) (h : 1 ≤ limit) :
    cleanStrings l limit = (cleanAccept l []).take limit := by
  unfold cleanStrings
  simpa using cleanStringsGo_eq_take limit l [] [] (by simp only [List.length_nil]; omega)

theorem cleanAccept_invariants :
    ∀ (l : List String) (seen : List (List Char)),
      (∀ o ∈ cleanAccept l seen, cleanElem o ∧ normalizeOptionL o.data ∉ seen) ∧
      (cleanAccept l seen).Pairwise
        (fun a b => normalizeOptionL a.data ≠ normalizeOptionL b.data) := by
  intro l
  induction l with
  | nil => intro seen; simp [cleanAccept]
  | cons item rest ih =>
    intro seen
    rw [cleanAccept]
    by_cases h8 : (collapseWsL (jsTrimL item.data)).length < 8
    · simp only [h8, if_pos]
      exact ih seen
    · simp only [h8, if_neg, ite_false]
      by_cases hkey : ((normalizeOptionL (collapseWsL (jsTrimL item.data))).isEmpty ||
          seen.contains (normalizeOptionL (collapseWsL (jsTrimL item.data)))) = true
      · simp only [hkey, if_pos]
        exact ih seen
      · simp only [hkey, if_neg, Bool.not_eq_true, ite_false]
        have hor : ((normalizeOptionL (collapseWsL (jsTrimL item.data))).isEmpty ||
            seen.contains (normalizeOptionL (collapseWsL (jsTrimL item.data)))) = false := by
          cases hx : ((normalizeOptionL (collapseWsL (jsTrimL item.data))).isEmpty ||
              seen.contains (normalizeOptionL (collapseWsL (jsTrimL item.data)))) with
          | false => rfl
          | true => exact absurd hx hkey
        obtain ⟨hkE, hkC⟩ := Bool.or_eq_false_iff.mp hor
        have hne : normalizeOptionL (collapseWsL (jsTrimL item.data)) ≠ [] := by
          intro hx
          rw [hx] at hkE
          simp at hkE
        have hnotseen : normalizeOptionL (collapseWsL (jsTrimL item.data)) ∉ seen := by
          simpa using hkC
        have hhead : cleanElem (String.mk (collapseWsL (jsTrimL item.data))) := by
          refine ⟨?_, ?_, ?_⟩
          · exact clean_fixed_point item.data
          · simpa using h8
          · exact hne
        obtain ⟨ihmem, ihpw⟩ := ih (normalizeOptionL (collapseWsL (jsTrimL item.data)) :: seen)
        refine ⟨?_, ?_⟩
        · intro o ho
          rcases List.mem_cons.mp ho with rfl | ho'
          · exact ⟨hhead, by simpa using hnotseen⟩
          · obtain ⟨hel, hsn⟩ := ihmem o ho'
            exact ⟨hel, fun hx => hsn (List.mem_cons_of_mem _ hx)⟩
        · refine List.pairwise_cons.mpr ⟨?_, ihpw⟩
          intro o ho
          have := (ihmem o ho).2
          intro heq
          exact this (by rw [← heq]; simp)

theorem cleanAccept_eq_self :
    ∀ (L : List String) (seen : List (List Char)),
      (∀ o ∈ L, cleanElem o) →
      L.Pairwise (fun a b => normalizeOptionL a.data ≠ normalizeOptionL b.data) →
      (∀ o ∈ L, normalizeOptionL o.data ∉ seen) →
      cleanAccept L seen = L := by
  intro L
  induction L with
  | nil => intro seen _ _ _; rfl
  | cons o L' ih =>
    intro seen hel hpw hsn
    obtain ⟨hfix, h8, hne⟩ := hel o (List.mem_cons_self o L')
    rw [cleanAccept]
    rw [hfix]
    simp only [h8, if_neg, ite_false]
    have hguard : ((normalizeOptionL o.data).isEmpty ||
        seen.contains (normalizeOptionL o.data)) = false := by
      have h1 : (normalizeOptionL o.data).isEmpty = false := by
        cases hx : normalizeOptionL o.data with
        | nil => exact absurd hx hne
        | cons a t => simp
      have h2 : seen.contains (normalizeOptionL o.data) = false := by
        have := hsn o (List.mem_cons_self o L')
        simpa using this
      rw [h1, h2]
      rfl
    rw [hguard]
    simp only [Bool.false_eq_true, ite_false]
    have hmk : String.mk o.data = o := rfl
    rw [hmk]
    congr 1
    apply ih (normalizeOptionL o.data :: seen)
    · exact fun o' ho' => hel o' (List.mem_cons_of_mem _ ho')
    · exact (List.pairwise_cons.mp hpw).2
    · intro o' ho'
      have hs := hsn o' (List.mem_cons_of_mem _ ho')
      have hd := (List.pairwise_cons.mp hpw).1 o' ho'
      intro hx
      rcases List.mem_cons.mp hx with heq | hmem
      · exact hd heq.symm
      · exact hs hmem

theorem cleanStrings_length_le (l : List String) (limit : Nat) (h : 1 ≤ limit) :
    (cleanStrings l limit).length ≤ limit := by
  rw [cleanStrings_eq_take l limit h]
  exact List.length_take_le limit _

theorem cleanStrings_keys_pairwise (l : List String) (limit : Nat) (h : 1 ≤ limit) :
    (cleanStrings l limit).Pairwise (fun a b => normalizeOption a ≠ normalizeOption b) := by
  rw [cleanStrings_eq_take l limit h]
  have hpw := (cleanAccept_invariants l []).2
  have := List.Pairwise.sublist (List.take_sublist limit (cleanAccept l [])) hpw
  refine this.imp ?_
  intro a b hne heq
  apply hne
  have : (normalizeOption a).data = (normalizeOption b).data := by rw [heq]
  simpa [normalizeOption] using this

theorem cleanStrings_comp (l : List String) (m n : Nat) (hm : 1 ≤ m) (hmn : m ≤ n) :
    cleanStrings (cleanStrings l n) m = cleanStrings l m := by
  have hn : 1 ≤ n := le_trans hm hmn
  rw [cleanStrings_eq_take l n hn, cleanStrings_eq_take _ m hm, cleanStrings_eq_take l m hm]
  have hself : cleanAccept ((cleanAccept l []).take n) [] = (cleanAccept l []).take n := by
    apply cleanAccept_eq_self
    · intro o ho
      have hmem := List.Sublist.mem ho (List.take_sublist n (cleanAccept l []))
      exact ((cleanAccept_invariants l []).1 o hmem).1
    · exact List.Pairwise.sublist (List.take_sublist n _) (cleanAccept_invariants l []).2
    · intro o _
      simp
  rw [hself, List.take_take, Nat.min_eq_left hmn]

/-! ## Workflow evaluation: brainstorm stage (C4) -/

/-- C4: in stage `brainstorm` the evaluation's candidate pool is the
deduplicated, 12-capped extraction from recent persona turns; when it holds
at least 5 distinct options the stage transitions to `cluster` with a
non-empty transition reason, and with fewer than 5 it stays `brainstorm`. -/
theorem brainstorm_to_cluster (v : JsonVal) (turns : List Turn) (ps : List String)
    (hstage : (sanitizeWorkflowState v).stage = "brainstorm") :
    (evaluateWorkflowState v turns ps).candidate_options = collectCandidateOptions turns ps ∧
    (collectCandidateOptions turns ps).length ≤ 12 ∧
    (5 ≤ (collectCandidateOptions turns ps).length →
      (evaluateWorkflowState v turns ps).stage = "cluster" ∧
      (evaluateWorkflowState v turns ps).last_transition_reason ≠ "") ∧
    ((collectCandidateOptions turns ps).length < 5 →
      (evaluateWorkflowState v turns ps).stage = "brainstorm") := by
  have hlen : (collectCandidateOptions turns ps).length ≤ 12 := by
    unfold collectCandidateOptions
    exact cleanStrings_length_le _ 12 (by omega)
  by_cases h5 : 5 ≤ (collectCandidateOptions turns ps).length
  · refine ⟨?_, hlen, fun _ => ⟨?_, ?_⟩, fun hlt => absurd h5 (by omega)⟩ <;>
      simp [evaluateWorkflowState, hstage, h5]
  · have h5' : ¬ 5 ≤ (collectCandidateOptions turns ps).length := h5
    refine ⟨?_, hlen, fun hge => absurd hge h5', fun _ => ?_⟩ <;>
      simp [evaluateWorkflowState, hstage, h5', hstage]

/-- Witness for C4: a brainstorm state and one persona turn carrying five
distinct bulleted options transitions to `cluster`. -/
theorem brainstorm_to_cluster_witness :
    (evaluateWorkflowState (JsonVal.obj [])
      [⟨"Alice", "- Alpha idea one\n- Bravo idea two\n- Charlie idea three\n- Delta idea four\n- Echo idea five"⟩]
      ["Alice"]).stage = "cluster" ∧
    (evaluateWorkflowState (JsonVal.obj [])
      [⟨"Alice", "- Alpha idea one\n- Bravo idea two\n- Charlie idea three\n- Delta idea four\n- Echo idea five"⟩]
      ["Alice"]).last_transition_reason ≠ "" :=
  (brainstorm_to_cluster (JsonVal.obj [])
    [⟨"Alice", "- Alpha idea one\n- Bravo idea two\n- Charlie idea three\n- Delta idea four\n- Echo idea five"⟩]
    ["Alice"] (by decide)).2.2.1 (by decide)

/-! ## Sanitization lemmas (C9) -/

theorem jsMax0_fin_nonneg (x : JsNum) (q : Rat) (h : jsMax0 x = JsNum.fin q) : 0 ≤ q := by
  cases x with
  | nan => simp [jsMax0] at h
  | inf => simp [jsMax0] at h
  | negInf =>
    simp [jsMax0] at h
    rw [← h]
  | fin q' =>
    simp [jsMax0] at h
    rw [← h]
    exact le_max_left 0 q'

theorem sanitizeWorkflowState_objlike (v : JsonVal) (hobj : isJsObjectLike v = true) :
    sanitizeWorkflowState v =
      { stage := sanitizeStage v
        cycle_count_in_stage := sanitizeCounter v "cycle_count_in_stage"
        candidate_options := sanitizeOptions v "candidate_options" 12
        shortlist_options := sanitizeOptions v "shortlist_options" 3
        locked_decision := sanitizeLocked v
        last_transition_reason := sanitizeReason v
        decide_window_failures := sanitizeCounter v "decide_window_failures" } := by
  unfold sanitizeWorkflowState
  rw [hobj]
  simp

theorem sanitizeWorkflowState_default (v : JsonVal) (hobj : isJsObjectLike v = false) :
    sanitizeWorkflowState v = defaultWorkflowState := by
  unfold sanitizeWorkflowState
  rw [hobj]
  simp

theorem sanitizeStage_mem (v : JsonVal) :
    WORKFLOW_STAGES.contains (sanitizeStage v) = true := by
  unfold sanitizeStage
  rcases hsf : getField v "stage" with _ | w
  · decide
  · cases w with
    | str s =>
      show WORKFLOW_STAGES.contains
        (if WORKFLOW_STAGES.contains s = true then s else defaultWorkflowState.stage) = true
      split
      · assumption
      · decide
    | null => decide
    | bool b => rfl
    | num q => rfl
    | arr l => rfl
    | obj f => rfl

theorem sanitizeStage_invalid (v : JsonVal) (strg : String)
    (hf : getField v "stage" = some (JsonVal.str strg))
    (hbad : WORKFLOW_STAGES.contains strg = false) :
    sanitizeStage v = "brainstorm" := by
  unfold sanitizeStage
  rw [hf]
  show (if WORKFLOW_STAGES.contains strg = true then strg else defaultWorkflowState.stage)
    = "brainstorm"
  rw [if_neg (by simpa using hbad)]
  rfl

theorem sanitizeCounter_negative (v : JsonVal) (key : String) (q : Rat)
    (hf : getField v key = some (JsonVal.num q)) (hq : q < 0) :
    sanitizeCounter v key = JsNum.fin 0 := by
  unfold sanitizeCounter
  rw [hf]
  have hq0 : ¬ q = 0 := by intro h; rw [h] at hq; exact absurd hq (by norm_num)
  have hfl : jsFalsy (JsonVal.num q) = false := by simp [jsFalsy, hq0]
  simp [jsOrZero, hfl, jsToNumber, jsMax0]
  exact le_of_lt hq

theorem cleanOptionList_length_le (w : JsonVal) (limit : Nat) (h : 1 ≤ limit) :
    (cleanOptionList w limit).length ≤ limit := by
  cases w with
  | arr items => exact cleanStrings_length_le _ limit h
  | null => simp [cleanOptionList]
  | bool b => simp [cleanOptionList]
  | num q => simp [cleanOptionList]
  | str s => simp [cleanOptionList]
  | obj f => simp [cleanOptionList]

theorem cleanOptionList_keys_pairwise (w : JsonVal) (limit : Nat) (h : 1 ≤ limit) :
    (cleanOptionList w limit).Pairwise (fun a b => normalizeOption a ≠ normalizeOption b) := by
  cases w with
  | arr items => exact cleanStrings_keys_pairwise _ limit h
  | null => simp [cleanOptionList]
  | bool b => simp [cleanOptionList]
  | num q => simp [cleanOptionList]
  | str s => simp [cleanOptionList]
  | obj f => simp [cleanOptionList]

theorem sanitizeOptions_length_le (v : JsonVal) (key : String) (limit : Nat) (h : 1 ≤ limit) :
    (sanitizeOptions v key limit).length ≤ limit := by
  unfold sanitizeOptions
  exact cleanOptionList_length_le _ limit h

theorem sanitizeOptions_keys_pairwise (v : JsonVal) (key : String) (limit : Nat) (h : 1 ≤ limit) :
    (sanitizeOptions v key limit).Pairwise (fun a b => normalizeOption a ≠ normalizeOption b) := by
  unfold sanitizeOptions
  exact cleanOptionList_keys_pairwise _ limit h

/-- C9: loading persisted workflow state never crashes (`loadWorkflowState`
is total) and always yields a coerced state: the stage lies in the
five-stage enum (an out-of-enum stage string falls back to `brainstorm`),
negative counters clamp to zero (and every finite counter value is
non-negative), and both option lists are deduplicated by normalized key and
length-capped (candidates at 12, shortlist at 3). -/
theorem load_sanitize_coerces (p : Option JsonVal) :
    WORKFLOW_STAGES.contains (loadWorkflowState p).stage = true ∧
    (∀ v strg, p = some v → getField v "stage" = some (JsonVal.str strg) →
      WORKFLOW_STAGES.contains strg = false → (loadWorkflowState p).stage = "brainstorm") ∧
    (∀ v q, p = some v → getField v "cycle_count_in_stage" = some (JsonVal.num q) → q < 0 →
      (loadWorkflowState p).cycle_count_in_stage = JsNum.fin 0) ∧
    (∀ v q, p = some v → getField v "decide_window_failures" = some (JsonVal.num q) → q < 0 →
      (loadWorkflowState p).decide_window_failures = JsNum.fin 0) ∧
    (∀ q, (loadWorkflowState p).cycle_count_in_stage = JsNum.fin q → 0 ≤ q) ∧
    (∀ q, (loadWorkflowState p).decide_window_failures = JsNum.fin q → 0 ≤ q) ∧
    (loadWorkflowState p).candidate_options.length ≤ 12 ∧
    (loadWorkflowState p).shortlist_options.length ≤ 3 ∧
    (loadWorkflowState p).candidate_options.Pairwise
      (fun a b => normalizeOption a ≠ normalizeOption b) ∧
    (loadWorkflowState p).shortlist_options.Pairwise
      (fun a b => normalizeOption a ≠ normalizeOption b) := by
  cases p with
  | none =>
    refine ⟨by decide, ?_, ?_, ?_, ?_, ?_, ?_, ?_, ?_, ?_⟩
    · intro v strg h hf hbad; exact nomatch h
    · intro v q h hf hq; exact nomatch h
    · intro v q h hf hq; exact nomatch h
    · intro q h
      simp [loadWorkflowState, defaultWorkflowState] at h
      rw [← h]
    · intro q h
      simp [loadWorkflowState, defaultWorkflowState] at h
      rw [← h]
    · simp [loadWorkflowState, defaultWorkflowState]
    · simp [loadWorkflowState, defaultWorkflowState]
    · simp [loadWorkflowState, defaultWorkflowState]
    · simp [loadWorkflowState, defaultWorkflowState]
  | some v =>
    have hload : loadWorkflowState (some v) = sanitizeWorkflowState v := rfl
    rw [hload]
    by_cases hobj : isJsObjectLike v = true
    · rw [sanitizeWorkflowState_objlike v hobj]
      refine ⟨sanitizeStage_mem v,
        fun v' strg hv' hf hbad =>
          (by cases hv'; exact sanitizeStage_invalid v strg hf hbad),
        fun v' q hv' hf hq =>
          (by cases hv'; exact sanitizeCounter_negative v _ q hf hq),
        fun v' q hv' hf hq =>
          (by cases hv'; exact sanitizeCounter_negative v _ q hf hq),
        fun q hq => jsMax0_fin_nonneg _ q hq,
        fun q hq => jsMax0_fin_nonneg _ q hq,
        sanitizeOptions_length_le v _ 12 (by omega),
        sanitizeOptions_length_le v _ 3 (by omega),
        sanitizeOptions_keys_pairwise v _ 12 (by omega),
        sanitizeOptions_keys_pairwise v _ 3 (by omega)⟩
    · have hobj' : isJsObjectLike v = false := by
        cases hx : isJsObjectLike v with
        | false => rfl
        | true => exact absurd hx hobj
      rw [sanitizeWorkflowState_default v hobj']
      refine ⟨by decide, fun v' strg hv' hf hbad => (by simp [defaultWorkflowState]),
        fun v' q hv' hf hq => (by simp [defaultWorkflowState]),
        fun v' q hv' hf hq => (by simp [defaultWorkflowState]),
        ?_, ?_, by simp [defaultWorkflowState], by simp [defaultWorkflowState],
        by simp [defaultWorkflowState], by simp [defaultWorkflowState]⟩
      · intro q h
        simp [defaultWorkflowState] at h
        rw [← h]
      · intro q h
        simp [defaultWorkflowState] at h
        rw [← h]

/-- Witness for C9: a malformed state (out-of-enum stage, negative counter,
non-string option entry) is coerced, not crashed on. -/
theorem load_sanitize_coerces_witness :
    (loadWorkflowState (some (JsonVal.obj
      [("stage", JsonVal.str "banana"), ("cycle_count_in_stage", JsonVal.num (-5)),
       ("candidate_options", JsonVal.arr [JsonVal.str "a real option", JsonVal.num 3])]))).stage
      = "brainstorm" ∧
    (loadWorkflowState (some (JsonVal.obj
      [("stage", JsonVal.str "banana"), ("cycle_count_in_stage", JsonVal.num (-5)),
       ("candidate_options", JsonVal.arr [JsonVal.str "a real option", JsonVal.num 3])]))).cycle_count_in_stage
      = JsNum.fin 0 := by
  have h := load_sanitize_coerces (some (JsonVal.obj
    [("stage", JsonVal.str "banana"), ("cycle_count_in_stage", JsonVal.num (-5)),
     ("candidate_options", JsonVal.arr [JsonVal.str "a real option", JsonVal.num 3])]))
  exact ⟨h.2.1 _ "banana" rfl rfl (by decide),
    h.2.2.1 _ (-5) rfl rfl (by norm_num)⟩

/-! ## Workflow evaluation: stalled decide stage (C8) -/

/-- C8: in stage `decide`, when agreement detection finds no winner and at
least one cycle has elapsed in the stage, evaluation increments the
decide-window failure counter, narrows `shortlist_options` to its best two
entries (or, if the incoming shortlist was too small, to the best two of
the candidate pool), resets the stage's cycle counter to 0, and leaves both
the stage (still `decide`) and `locked_decision` unchanged — it never
silently picks a decision.  The hypotheses name the evaluator's own
intermediate values: the topped-up shortlist that agreement detection runs
on, and the `forced` narrowed pair, which must have two entries for the
narrowing to apply. -/
theorem decide_stall_forces_binary_choice (v : JsonVal) (turns : List Turn) (ps : List String)
    (hstage : (sanitizeWorkflowState v).stage = "decide")
    (hdetect : detectAgreementDecision turns ps
      (if (sanitizeWorkflowState v).shortlist_options.length < 2
       then pickTopOptions (collectCandidateOptions turns ps) 3
       else (sanitizeWorkflowState v).shortlist_options) = none)
    (hcyc : jsNumGe (sanitizeWorkflowState v).cycle_count_in_stage 1 = true)
    (hforced : 2 ≤ (pickTopOptions
      (if 0 < (if (sanitizeWorkflowState v).shortlist_options.length < 2
               then pickTopOptions (collectCandidateOptions turns ps) 3
               else (sanitizeWorkflowState v).shortlist_options).length
       then (if (sanitizeWorkflowState v).shortlist_options.length < 2
             then pickTopOptions (collectCandidateOptions turns ps) 3
             else (sanitizeWorkflowState v).shortlist_options)
       else collectCandidateOptions turns ps) 2).length) :
    (evaluateWorkflowState v turns ps).stage = "decide" ∧
    (evaluateWorkflowState v turns ps).cycle_count_in_stage = JsNum.fin 0 ∧
    (evaluateWorkflowState v turns ps).locked_decision =
      (sanitizeWorkflowState v).locked_decision ∧
    (evaluateWorkflowState v turns ps).decide_window_failures =
      jsAdd1 (sanitizeWorkflowState v).decide_window_failures ∧
    (evaluateWorkflowState v turns ps).last_transition_reason =
      "forced binary choice after stalled decision window" ∧
    (evaluateWorkflowState v turns ps).shortlist_options.length ≤ 2 ∧
    (2 ≤ (sanitizeWorkflowState v).shortlist_options.length →
      (evaluateWorkflowState v turns ps).shortlist_options =
        pickTopOptions (sanitizeWorkflowState v).shortlist_options 2) ∧
    ((sanitizeWorkflowState v).shortlist_options.length < 2 →
      (evaluateWorkflowState v turns ps).shortlist_options =
        pickTopOptions (collectCandidateOptions turns ps) 2) := by
  by_cases hlen2 : (sanitizeWorkflowState v).shortlist_options.length < 2
  · have hdet' : detectAgreementDecision turns ps
        (pickTopOptions (collectCandidateOptions turns ps) 3) = none := by
      simpa [hlen2] using hdetect
    by_cases h0 : 0 < (pickTopOptions (collectCandidateOptions turns ps) 3).length
    · have hf' : 2 ≤ (pickTopOptions
          (pickTopOptions (collectCandidateOptions turns ps) 3) 2).length := by
        simpa [hlen2, h0] using hforced
      have hcomp : pickTopOptions (pickTopOptions (collectCandidateOptions turns ps) 3) 2
          = pickTopOptions (collectCandidateOptions turns ps) 2 := by
        unfold pickTopOptions
        exact cleanStrings_comp _ 2 3 (by omega) (by omega)
      have hres : evaluateWorkflowState v turns ps =
          { stage := (sanitizeWorkflowState v).stage
            cycle_count_in_stage := JsNum.fin 0
            candidate_options := collectCandidateOptions turns ps
            shortlist_options :=
              pickTopOptions (pickTopOptions (collectCandidateOptions turns ps) 3) 2
            locked_decision := (sanitizeWorkflowState v).locked_decision
            last_transition_reason := "forced binary choice after stalled decision window"
            decide_window_failures :=
              jsAdd1 (sanitizeWorkflowState v).decide_window_failures } := by
        simp [evaluateWorkflowState, hstage, hlen2, hdet', hcyc, h0, hf']
      rw [hres]
      refine ⟨hstage, rfl, rfl, rfl, rfl, ?_, fun hge => absurd hge (by omega), fun _ => hcomp⟩
      rw [hcomp]
      exact cleanStrings_length_le _ 2 (by omega)
    · exfalso
      have hnil : pickTopOptions (collectCandidateOptions turns ps) 3 = [] := by
        cases hx : pickTopOptions (collectCandidateOptions turns ps) 3 with
        | nil => rfl
        | cons a t => rw [hx] at h0; simp at h0
      have haccept : cleanAccept (collectCandidateOptions turns ps) [] = [] := by
        have h3 : cleanStrings (collectCandidateOptions turns ps) 3
            = (cleanAccept (collectCandidateOptions turns ps) []).take 3 :=
          cleanStrings_eq_take _ 3 (by omega)
        have : (cleanAccept (collectCandidateOptions turns ps) []).take 3 = [] := by
          rw [← h3]
          exact hnil
        rcases List.take_eq_nil_iff.mp this with h | h
        · exact absurd h (by omega)
        · exact h
      have h2nil : pickTopOptions (collectCandidateOptions turns ps) 2 = [] := by
        unfold pickTopOptions
        rw [cleanStrings_eq_take _ 2 (by omega), haccept]
        rfl
      have := hforced
      rw [if_pos hlen2, if_neg h0, h2nil] at this
      simp at this
  · have h0 : 0 < (sanitizeWorkflowState v).shortlist_options.length := by omega
    have hdet' : detectAgreementDecision turns ps
        ((sanitizeWorkflowState v).shortlist_options) = none := by
      simpa [hlen2] using hdetect
    have hf' : 2 ≤ (pickTopOptions ((sanitizeWorkflowState v).shortlist_options) 2).length := by
      simpa [hlen2, h0] using hforced
    have hres : evaluateWorkflowState v turns ps =
        { stage := (sanitizeWorkflowState v).stage
          cycle_count_in_stage := JsNum.fin 0
          candidate_options := collectCandidateOptions turns ps
          shortlist_options := pickTopOptions ((sanitizeWorkflowState v).shortlist_options) 2
          locked_decision := (sanitizeWorkflowState v).locked_decision
          last_transition_reason := "forced binary choice after stalled decision window"
          decide_window_failures :=
            jsAdd1 (sanitizeWorkflowState v).decide_window_failures } := by
      simp [evaluateWorkflowState, hstage, hlen2, hdet', hcyc, h0, hf']
    rw [hres]
    refine ⟨hstage, rfl, rfl, rfl, rfl, ?_, fun _ => rfl, fun hlt => absurd hlt hlen2⟩
    exact cleanStrings_length_le _ 2 (by omega)

/-- Witness for C8: a decide-stage state with a two-entry shortlist, one
elapsed cycle, and no agreeing turns keeps the stage and narrows the
shortlist. -/
theorem decide_stall_forces_binary_choice_witness :
    (evaluateWorkflowState (JsonVal.obj
      [("stage", JsonVal.str "decide"), ("cycle_count_in_stage", JsonVal.num 1),
       ("shortlist_options", JsonVal.arr [JsonVal.str "Option AA", JsonVal.str "Option BB"])])
      [] []).stage = "decide" ∧
    (evaluateWorkflowState (JsonVal.obj
      [("stage", JsonVal.str "decide"), ("cycle_count_in_stage", JsonVal.num 1),
       ("shortlist_options", JsonVal.arr [JsonVal.str "Option AA", JsonVal.str "Option BB"])])
      [] []).cycle_count_in_stage = JsNum.fin 0 ∧
    (evaluateWorkflowState (JsonVal.obj
      [("stage", JsonVal.str "decide"), ("cycle_count_in_stage", JsonVal.num 1),
       ("shortlist_options", JsonVal.arr [JsonVal.str "Option AA", JsonVal.str "Option BB"])])
      [] []).locked_decision = (sanitizeWorkflowState (JsonVal.obj
      [("stage", JsonVal.str "decide"), ("cycle_count_in_stage", JsonVal.num 1),
       ("shortlist_options", JsonVal.arr [JsonVal.str "Option AA", JsonVal.str "Option BB"])])).locked_decision := by
  have h := decide_stall_forces_binary_choice (JsonVal.obj
    [("stage", JsonVal.str "decide"), ("cycle_count_in_stage", JsonVal.num 1),
     ("shortlist_options", JsonVal.arr [JsonVal.str "Option AA", JsonVal.str "Option BB"])])
    [] [] (by decide) (by decide) (by decide) (by decide)
  exact ⟨h.1, h.2.1, h.2.2.1⟩

/-! ## Agreement detection lemmas (C3, C10) -/

theorem addSupporterAt_option_key : ∀ (ts : List OptionTally) (i : Nat) (sp : String),
    (addSupporterAt ts i sp).map (fun t => (t.option, t.key)) =
      ts.map (fun t => (t.option, t.key)) := by
  intro ts
  induction ts with
  | nil => intro i sp; rfl
  | cons t rest ih =>
    intro i sp
    cases i with
    | zero => simp [addSupporterAt]
    | succ n => simp [addSupporterAt, ih n sp]

theorem tallyTurn_option_key (ts : List OptionTally) (turn : Turn) :
    (tallyTurn ts turn).map (fun t => (t.option, t.key)) =
      ts.map (fun t => (t.option, t.key)) := by
  unfold tallyTurn
  by_cases he : (jsTrimL turn.content.data).isEmpty
  · simp [he]
  · simp only [he]
    by_cases hag : hasAgreementPhrase (jsTrimL turn.content.data)
    · simp only [hag]
      cases hm : firstMatchIdxGo (normalizeOptionL (jsTrimL turn.content.data)) ts 0 with
      | none => simp
      | some i => simp [addSupporterAt_option_key]
    · simp [hag]

theorem foldl_tallyTurn_option_key (l : List Turn) :
    ∀ (ts : List OptionTally),
      (l.foldl tallyTurn ts).map (fun t => (t.option, t.key)) =
        ts.map (fun t => (t.option, t.key)) := by
  induction l with
  | nil => intro ts; rfl
  | cons turn rest ih =>
    intro ts
    rw [List.foldl_cons, ih (tallyTurn ts turn), tallyTurn_option_key]

theorem agreementTallies_options (turns : List Turn) (ps : List String)
    (shortlist : List String) :
    (agreementTallies turns ps shortlist).map (fun t => t.option) = shortlist := by
  have h1 : (agreementTallies turns ps shortlist).map (fun t => (t.option, t.key)) =
      (initTallies shortlist).map (fun t => (t.option, t.key)) :=
    foldl_tallyTurn_option_key _ _
  have h2 := congrArg (List.map Prod.fst) h1
  simp only [List.map_map] at h2
  have h3 : (agreementTallies turns ps shortlist).map (fun t => t.option) =
      (initTallies shortlist).map (fun t => t.option) := h2
  rw [h3]
  unfold initTallies
  rw [List.map_map]
  have hid : ((fun t : OptionTally => t.option) ∘ fun o =>
      ({ option := o, key := normalizeOptionL o.data, supporters := [] } : OptionTally)) = id := rfl
  rw [hid]
  exact List.map_id shortlist

theorem winnerFold_go_spec :
    ∀ (ts : List OptionTally) (acc : Option OptionTally) (w : OptionTally),
      (∀ a, acc = some a → 2 ≤ a.supporters.length) →
      ts.foldl (fun acc t =>
        if 2 ≤ t.supporters.length then
          match acc with
          | none => some t
          | some w => if w.supporters.length < t.supporters.length then some t else acc
        else acc) acc = some w →
      2 ≤ w.supporters.length ∧ (acc = some w ∨ w ∈ ts) ∧
      (∀ t ∈ ts, t.supporters.length ≤ w.supporters.length) ∧
      (∀ a, acc = some a → a.supporters.length ≤ w.supporters.length) := by
  intro ts
  induction ts with
  | nil =>
    intro acc w hinv hf
    simp at hf
    exact ⟨hinv w hf, Or.inl hf, by simp, fun a ha => by rw [hf] at ha; cases ha; exact le_refl _⟩
  | cons t rest ih =>
    intro acc w hinv hf
    rw [List.foldl_cons] at hf
    by_cases h2 : 2 ≤ t.supporters.length
    · cases acc with
      | none =>
        simp only [h2, if_pos] at hf
        obtain ⟨hw2, hmem, hbound, haccb⟩ := ih (some t) w
          (fun a ha => by cases ha; exact h2) hf
        refine ⟨hw2, ?_, ?_, fun a ha => nomatch ha⟩
        · rcases hmem with h | h
          · exact Or.inr (by cases h; exact List.mem_cons_self _ _)
          · exact Or.inr (List.mem_cons_of_mem t h)
        · intro t' ht'
          rcases List.mem_cons.mp ht' with heq | ht''
          · rw [heq]; exact haccb _ rfl
          · exact hbound t' ht''
      | some w0 =>
        simp only [h2, if_pos] at hf
        by_cases hlt : w0.supporters.length < t.supporters.length
        · rw [if_pos hlt] at hf
          obtain ⟨hw2, hmem, hbound, haccb⟩ := ih (some t) w
            (fun a ha => by cases ha; exact h2) hf
          refine ⟨hw2, ?_, ?_, ?_⟩
          · rcases hmem with h | h
            · exact Or.inr (by cases h; exact List.mem_cons_self _ _)
            · exact Or.inr (List.mem_cons_of_mem t h)
          · intro t' ht'
            rcases List.mem_cons.mp ht' with heq | ht''
            · rw [heq]; exact haccb _ rfl
            · exact hbound t' ht''
          · intro a ha
            cases ha
            exact le_trans (le_of_lt hlt) (haccb t rfl)
        · rw [if_neg hlt] at hf
          obtain ⟨hw2, hmem, hbound, haccb⟩ := ih (some w0) w hinv hf
          refine ⟨hw2, ?_, ?_, haccb⟩
          · rcases hmem with h | h
            · exact Or.inl h
            · exact Or.inr (List.mem_cons_of_mem t h)
          · intro t' ht'
            rcases List.mem_cons.mp ht' with heq | ht''
            · rw [heq]; exact le_trans (le_of_not_lt hlt) (haccb w0 rfl)
            · exact hbound t' ht''
    · simp only [h2, if_neg, ite_false] at hf
      obtain ⟨hw2, hmem, hbound, haccb⟩ := ih acc w hinv hf
      refine ⟨hw2, ?_, ?_, haccb⟩
      · rcases hmem with h | h
        · exact Or.inl h
        · exact Or.inr (List.mem_cons_of_mem t h)
      · intro t' ht'
        rcases List.mem_cons.mp ht' with heq | ht''
        · rw [heq]; exact le_trans (by omega) hw2
        · exact hbound t' ht''

theorem winnerFold_spec (ts : List OptionTally) (w : OptionTally)
    (h : winnerFold ts = some w) :
    w ∈ ts ∧ 2 ≤ w.supporters.length ∧
    ∀ t ∈ ts, t.supporters.length ≤ w.supporters.length := by
  obtain ⟨hw2, hmem, hbound, _⟩ := winnerFold_go_spec ts none w (fun a ha => nomatch ha) h
  rcases hmem with h' | h'
  · exact nomatch h'
  · exact ⟨h', hw2, hbound⟩

/-! ## Workflow evaluation: decide stage locks the agreed option (C3) -/

/-- C3: in stage `decide` with a shortlist of at least two options, when
agreement detection returns a winner `w`, evaluation sets
`locked_decision := w` and transitions the stage to `next_action`; the
winner is one of the shortlist's tallies, has at least two distinct
supporters, and no shortlist option has more distinct supporters.  The
witness instantiates the spec's scenario: shortlist
`["Option A", "Option B"]` and three persona turns containing `"I agree"`
plus `"Option A"` from two distinct speakers. -/
theorem decide_agreement_locks_decision (v : JsonVal) (turns : List Turn) (ps : List String)
    (w : String)
    (hstage : (sanitizeWorkflowState v).stage = "decide")
    (hlen : 2 ≤ (sanitizeWorkflowState v).shortlist_options.length)
    (hwin : detectAgreementDecision turns ps (sanitizeWorkflowState v).shortlist_options
      = some w) :
    (evaluateWorkflowState v turns ps).locked_decision = some w ∧
    (evaluateWorkflowState v turns ps).stage = "next_action" ∧
    (evaluateWorkflowState v turns ps).cycle_count_in_stage = JsNum.fin 0 ∧
    (evaluateWorkflowState v turns ps).last_transition_reason =
      "two explicit agreements reached" ∧
    (agreementTallies turns ps (sanitizeWorkflowState v).shortlist_options).map
      (fun t => t.option) = (sanitizeWorkflowState v).shortlist_options ∧
    (∃ tw, tw ∈ agreementTallies turns ps (sanitizeWorkflowState v).shortlist_options ∧
      tw.option = w ∧ 2 ≤ tw.supporters.length ∧
      ∀ t ∈ agreementTallies turns ps (sanitizeWorkflowState v).shortlist_options,
        t.supporters.length ≤ tw.supporters.length) := by
  have hlen2 : ¬ (sanitizeWorkflowState v).shortlist_options.length < 2 := by omega
  have hres : evaluateWorkflowState v turns ps =
      { stage := "next_action"
        cycle_count_in_stage := JsNum.fin 0
        candidate_options := collectCandidateOptions turns ps
        shortlist_options := (sanitizeWorkflowState v).shortlist_options
        locked_decision := some w
        last_transition_reason := "two explicit agreements reached"
        decide_window_failures := (sanitizeWorkflowState v).decide_window_failures } := by
    simp [evaluateWorkflowState, hstage, hlen2, hwin]
  have htallies : ∃ tw, winnerFold
      (agreementTallies turns ps (sanitizeWorkflowState v).shortlist_options) = some tw ∧
      tw.option = w := by
    unfold detectAgreementDecision at hwin
    by_cases hemp : (recentPersonaTurns turns ps 40).isEmpty
    · rw [if_pos hemp] at hwin; cases hwin
    · rw [if_neg hemp] at hwin
      rcases hfold : winnerFold
          (agreementTallies turns ps (sanitizeWorkflowState v).shortlist_options) with _ | tw
      · rw [hfold] at hwin; cases hwin
      · rw [hfold] at hwin
        simp at hwin
        exact ⟨tw, rfl, hwin⟩
  obtain ⟨tw, hfold, hopt⟩ := htallies
  obtain ⟨hmem, h2, hbound⟩ := winnerFold_spec _ tw hfold
  rw [hres]
  exact ⟨rfl, rfl, rfl, rfl, agreementTallies_options turns ps _,
    tw, hmem, hopt, h2, hbound⟩

/-- Witness for C3 at the spec's concrete scenario. -/
theorem decide_agreement_locks_decision_witness :
    (evaluateWorkflowState (JsonVal.obj
      [("stage", JsonVal.str "decide"),
       ("shortlist_options", JsonVal.arr [JsonVal.str "Option A", JsonVal.str "Option B"])])
      [⟨"Alice", "I agree, Option A is best."⟩, ⟨"Bob", "I agree: Option A!"⟩,
       ⟨"Alice", "I agree with Option A."⟩]
      ["Alice", "Bob"]).locked_decision = some "Option A" ∧
    (evaluateWorkflowState (JsonVal.obj
      [("stage", JsonVal.str "decide"),
       ("shortlist_options", JsonVal.arr [JsonVal.str "Option A", JsonVal.str "Option B"])])
      [⟨"Alice", "I agree, Option A is best."⟩, ⟨"Bob", "I agree: Option A!"⟩,
       ⟨"Alice", "I agree with Option A."⟩]
      ["Alice", "Bob"]).stage = "next_action" := by
  have h := decide_agreement_locks_decision (JsonVal.obj
      [("stage", JsonVal.str "decide"),
       ("shortlist_options", JsonVal.arr [JsonVal.str "Option A", JsonVal.str "Option B"])])
    [⟨"Alice", "I agree, Option A is best."⟩, ⟨"Bob", "I agree: Option A!"⟩,
     ⟨"Alice", "I agree with Option A."⟩]
    ["Alice", "Bob"] "Option A" (by decide) (by decide) (by decide)
  exact ⟨h.1, h.2.1⟩

/-! ## Per-turn crediting characterization (C10) -/

theorem tallyTurn_keys (ts : List OptionTally) (turn : Turn) :
    (tallyTurn ts turn).map (fun t => t.key) = ts.map (fun t => t.key) := by
  have h1 := tallyTurn_option_key ts turn
  have h2 := congrArg (List.map Prod.snd) h1
  simp only [List.map_map] at h2
  exact h2

theorem firstMatchIdxGo_congr_keys (c : List Char) :
    ∀ (ts₁ ts₂ : List OptionTally) (n : Nat),
      ts₁.map (fun t => t.key) = ts₂.map (fun t => t.key) →
      firstMatchIdxGo c ts₁ n = firstMatchIdxGo c ts₂ n := by
  intro ts₁
  induction ts₁ with
  | nil =>
    intro ts₂ n h
    cases ts₂ with
    | nil => rfl
    | cons b t₂ => simp at h
  | cons a t₁ ih =>
    intro ts₂ n h
    cases ts₂ with
    | nil => simp at h
    | cons b t₂ =>
      simp at h
      obtain ⟨hk, ht⟩ := h
      rw [firstMatchIdxGo, firstMatchIdxGo, hk]
      by_cases hc : !b.key.isEmpty && containsSub c b.key
      · rw [if_pos hc, if_pos hc]
      · rw [if_neg hc, if_neg hc]
        exact ih t₂ (n + 1) ht

theorem creditIndexOn_congr (ts₁ ts₂ : List OptionTally) (t : Turn)
    (h : ts₁.map (fun x => x.key) = ts₂.map (fun x => x.key)) :
    creditIndexOn ts₁ t = creditIndexOn ts₂ t := by
  unfold creditIndexOn
  by_cases hq : qualifiesAgreement t = true
  · rw [if_pos hq, if_pos hq]
    exact firstMatchIdxGo_congr_keys _ ts₁ ts₂ 0 h
  · rw [if_neg hq, if_neg hq]

theorem tallyTurn_eq_cases (ts : List OptionTally) (turn : Turn) :
    tallyTurn ts turn =
      match creditIndexOn ts turn with
      | some i => addSupporterAt ts i turn.speaker
      | none => ts := by
  unfold tallyTurn creditIndexOn qualifiesAgreement
  by_cases he : (jsTrimL turn.content.data).isEmpty
  · simp [he]
  · simp only [he]
    by_cases hag : hasAgreementPhrase (jsTrimL turn.content.data)
    · simp only [hag]
      cases hm : firstMatchIdxGo (normalizeOptionL (jsTrimL turn.content.data)) ts 0 with
      | none => simp [hm]
      | some i => simp [hm]
    · simp [hag]

theorem addSupporterAt_get_ne :
    ∀ (ts : List OptionTally) (j : Nat) (sp : String) (i : Nat), i ≠ j →
      (addSupporterAt ts j sp).get? i = ts.get? i := by
  intro ts
  induction ts with
  | nil => intro j sp i _; cases j <;> rfl
  | cons t rest ih =>
    intro j sp i hne
    cases j with
    | zero =>
      cases i with
      | zero => exact absurd rfl hne
      | succ m => rfl
    | succ n =>
      cases i with
      | zero => rfl
      | succ m =>
        show (addSupporterAt rest n sp).get? m = rest.get? m
        exact ih n sp m (fun h => hne (by rw [h]))

theorem addSupporterAt_get_eq :
    ∀ (ts : List OptionTally) (j : Nat) (sp : String) (tally : OptionTally),
      ts.get? j = some tally →
      (addSupporterAt ts j sp).get? j = some
        { tally with supporters := if tally.supporters.contains sp then tally.supporters
                                   else tally.supporters ++ [sp] } := by
  intro ts
  induction ts with
  | nil => intro j sp tally h; cases j <;> cases h
  | cons t rest ih =>
    intro j sp tally h
    cases j with
    | zero =>
      cases h
      rfl
    | succ n =>
      show (addSupporterAt rest n sp).get? n = _
      exact ih n sp tally h

theorem mem_insertUnique (l : List String) (sp sp' : String) :
    (sp' ∈ (if l.contains sp then l else l ++ [sp])) ↔ sp' ∈ l ∨ sp' = sp := by
  by_cases hc : l.contains sp
  · rw [if_pos hc]
    constructor
    · exact Or.inl
    · rintro (h | rfl)
      · exact h
      · simpa using hc
  · rw [if_neg hc]
    simp

theorem foldl_supporters_spec :
    ∀ (pre : List Turn) (ts : List OptionTally) (i : Nat) (tally tally' : OptionTally)
      (sp : String),
      ts.get? i = some tally →
      (pre.foldl tallyTurn ts).get? i = some tally' →
      (sp ∈ tally'.supporters ↔ sp ∈ tally.supporters ∨
        ∃ t ∈ pre, t.speaker = sp ∧ creditIndexOn ts t = some i) := by
  intro pre
  induction pre with
  | nil =>
    intro ts i tally tally' sp hget hget'
    rw [List.foldl_nil] at hget'
    rw [hget] at hget'
    cases hget'
    simp
  | cons turn rest ih =>
    intro ts i tally tally' sp hget hget'
    rw [List.foldl_cons] at hget'
    have hkeys : (tallyTurn ts turn).map (fun t => t.key) = ts.map (fun t => t.key) :=
      tallyTurn_keys ts turn
    have hcredit : ∀ t : Turn, creditIndexOn (tallyTurn ts turn) t = creditIndexOn ts t :=
      fun t => creditIndexOn_congr _ _ t hkeys
    cases hc : creditIndexOn ts turn with
    | none =>
      have hts' : tallyTurn ts turn = ts := by rw [tallyTurn_eq_cases, hc]
      rw [hts'] at hget' hcredit
      have := ih ts i tally tally' sp hget hget'
      rw [this]
      constructor
      · rintro (h | ⟨t, ht, hsp, hcr⟩)
        · exact Or.inl h
        · exact Or.inr ⟨t, List.mem_cons_of_mem _ ht, hsp, hcr⟩
      · rintro (h | ⟨t, ht, hsp, hcr⟩)
        · exact Or.inl h
        · rcases List.mem_cons.mp ht with heq | ht'
          · rw [heq] at hcr
            rw [hc] at hcr
            cases hcr
          · exact Or.inr ⟨t, ht', hsp, hcr⟩
    | some j =>
      have hts' : tallyTurn ts turn = addSupporterAt ts j turn.speaker := by
        rw [tallyTurn_eq_cases, hc]
      rw [hts'] at hget' hcredit
      by_cases hij : i = j
      · subst hij
        have hgetIns := addSupporterAt_get_eq ts i turn.speaker tally hget
        have := ih (addSupporterAt ts i turn.speaker) i _ tally' sp hgetIns hget'
        rw [this]
        constructor
        · rintro (h | ⟨t, ht, hsp, hcr⟩)
          · rcases (mem_insertUnique tally.supporters turn.speaker sp).mp h with h' | h'
            · exact Or.inl h'
            · exact Or.inr ⟨turn, List.mem_cons_self _ _, h'.symm, hc⟩
          · rw [hcredit t] at hcr
            exact Or.inr ⟨t, List.mem_cons_of_mem _ ht, hsp, hcr⟩
        · rintro (h | ⟨t, ht, hsp, hcr⟩)
          · exact Or.inl ((mem_insertUnique tally.supporters turn.speaker sp).mpr (Or.inl h))
          · rcases List.mem_cons.mp ht with heq | ht'
            · refine Or.inl ((mem_insertUnique tally.supporters turn.speaker sp).mpr
                (Or.inr ?_))
              rw [heq] at hsp
              exact hsp.symm
            · rw [← hcredit t] at hcr
              exact Or.inr ⟨t, ht', hsp, hcr⟩
      · have hgetNe : (addSupporterAt ts j turn.speaker).get? i = some tally := by
          rw [addSupporterAt_get_ne ts j turn.speaker i hij]
          exact hget
        have := ih (addSupporterAt ts j turn.speaker) i tally tally' sp hgetNe hget'
        rw [this]
        constructor
        · rintro (h | ⟨t, ht, hsp, hcr⟩)
          · exact Or.inl h
          · rw [hcredit t] at hcr
            exact Or.inr ⟨t, List.mem_cons_of_mem _ ht, hsp, hcr⟩
        · rintro (h | ⟨t, ht, hsp, hcr⟩)
          · exact Or.inl h
          · rcases List.mem_cons.mp ht with heq | ht'
            · rw [heq] at hcr
              rw [hc] at hcr
              cases hcr
              exact absurd rfl hij
            · rw [← hcredit t] at hcr
              exact Or.inr ⟨t, ht', hsp, hcr⟩

/-- C10: in decide-stage agreement counting, a persona turn that carries an
agreement phrase is credited to at most one shortlist option — the first
option (in shortlist order) whose non-empty normalized text occurs in the
turn's normalized content.  Speaker `sp` ends up among the distinct
supporters of the tally at index `i` exactly when some recent persona turn
by `sp` qualifies and has `i` as its first-match index; a turn whose first
match is another option contributes nothing to index `i`, even when the
turn mentions several shortlist options. -/
theorem turn_credits_first_matching_option (turns : List Turn) (ps : List String)
    (shortlist : List String) (i : Nat) (sp : String) (tally : OptionTally)
    (hget : (agreementTallies turns ps shortlist).get? i = some tally) :
    sp ∈ tally.supporters ↔
      ∃ t ∈ recentPersonaTurns turns ps 40, t.speaker = sp ∧
        creditIndexOn (initTallies shortlist) t = some i := by
  have hlenEq : (agreementTallies turns ps shortlist).length = (initTallies shortlist).length := by
    have h1 := foldl_tallyTurn_option_key (recentPersonaTurns turns ps 40) (initTallies shortlist)
    have h2 := congrArg List.length h1
    simpa using h2
  have hi : i < (initTallies shortlist).length := by
    obtain ⟨hlt, _⟩ := List.get?_eq_some.mp hget
    omega
  obtain ⟨tally0, hget0⟩ : ∃ t0, (initTallies shortlist).get? i = some t0 := by
    cases hx : (initTallies shortlist).get? i with
    | some t0 => exact ⟨t0, rfl⟩
    | none =>
      have := List.get?_eq_none.mp hx
      omega
  have hsup0 : tally0.supporters = [] := by
    have hmem : tally0 ∈ initTallies shortlist := List.get?_mem hget0
    unfold initTallies at hmem
    obtain ⟨o, _, rfl⟩ := List.mem_map.mp hmem
    rfl
  have hchar := foldl_supporters_spec (recentPersonaTurns turns ps 40)
    (initTallies shortlist) i tally0 tally sp hget0 hget
  rw [hchar, hsup0]
  simp

/-- Witness for C10: a turn mentioning both shortlist options supports only
the first one; its speaker's membership in the first tally's supporters is
exactly the characterization's right-hand side. -/
theorem turn_credits_first_matching_option_witness :
    ("Alice" ∈ ({ option := "Option A"
                  key := normalizeOptionL "Option A".data
                  supporters := ["Alice"] } : OptionTally).supporters ↔
      ∃ t ∈ recentPersonaTurns [⟨"Alice", "I agree: Option A beats Option B"⟩] ["Alice"] 40,
        t.speaker = "Alice" ∧
        creditIndexOn (initTallies ["Option A", "Option B"]) t = some 0) :=
  turn_credits_first_matching_option
    [⟨"Alice", "I agree: Option A beats Option B"⟩] ["Alice"]
    ["Option A", "Option B"] 0 "Alice"
    { option := "Option A"
      key := normalizeOptionL "Option A".data
      supporters := ["Alice"] }
    (by decide)

/-! ## Persona scheduler lemmas (C2) -/

theorem swapL_perm (l : List String) (i j : Nat) (hi : i < l.length) (hj : j < l.length) :
    (swapL l i j).Perm l := by
  rw [List.perm_iff_count]
  intro x
  unfold swapL
  rw [List.getD_eq_getElem l "" hj, List.getD_eq_getElem l "" hi]
  have hj' : j < (l.set i l[j]).length := by
    rw [List.length_set]; exact hj
  rw [List.count_set _ _ _ _ hj']
  rw [List.count_set _ _ _ _ hi]
  have hgj : (l.set i l[j])[j] = l[j] := by
    rw [List.getElem_set]
    split <;> rfl
  rw [hgj]
  have hple : (if (l[i] == x) = true then 1 else 0) ≤ List.count x l := by
    by_cases hpx : (l[i] == x) = true
    · rw [if_pos hpx]
      have : l[i] = x := by simpa using hpx
      have hmem : x ∈ l := this ▸ List.getElem_mem hi
      have := List.count_pos_iff.mpr hmem
      omega
    · rw [if_neg hpx]
      omega
  omega

theorem fyAux_perm (rand : Nat → Nat) :
    ∀ (i : Nat) (l : List String), i < l.length → (fyAux rand i l).Perm l := by
  intro i
  induction i with
  | zero => intro l _; exact List.Perm.refl l
  | succ n ih =>
    intro l hlen
    rw [fyAux]
    have hj : rand (n + 1) % (n + 2) < l.length := by
      have := Nat.mod_lt (rand (n + 1)) (y := n + 2) (by omega)
      omega
    have hsw : (swapL l (n + 1) (rand (n + 1) % (n + 2))).Perm l :=
      swapL_perm l (n + 1) _ hlen hj
    have hswlen : (swapL l (n + 1) (rand (n + 1) % (n + 2))).length = l.length := by
      unfold swapL
      rw [List.length_set, List.length_set]
    exact (ih _ (by omega)).trans hsw

theorem fyShuffle_perm (rand : Nat → Nat) (l : List String) : (fyShuffle rand l).Perm l := by
  unfold fyShuffle
  cases hl : l.length with
  | zero => exact List.Perm.refl l
  | succ n => exact fyAux_perm rand n l (by omega)

theorem jsIndexOf_nonneg {α : Type} [DecidableEq α] (a : α) :
    ∀ (l : List α), a ∈ l → 0 ≤ jsIndexOf a l := by
  intro l
  induction l with
  | nil => intro h; cases h
  | cons x t ih =>
    intro hmem
    rw [jsIndexOf]
    by_cases hx : x = a
    · rw [if_pos hx]
    · rw [if_neg hx]
      have hat : a ∈ t := by
        rcases List.mem_cons.mp hmem with h | h
        · exact absurd h.symm hx
        · exact h
      have := ih hat
      rw [if_neg (by omega)]
      omega

theorem jsIndexOf_cons_ne {α : Type} [DecidableEq α] (a x : α) (t : List α)
    (hx : x ≠ a) (hmem : a ∈ t) : jsIndexOf a (x :: t) = jsIndexOf a t + 1 := by
  rw [jsIndexOf, if_neg hx]
  have := jsIndexOf_nonneg a t hmem
  rw [if_neg (by omega)]

theorem jsIndexOf_inj {α : Type} [DecidableEq α] :
    ∀ (l : List α) (a b : α), l.Nodup → a ∈ l → b ∈ l →
      jsIndexOf a l = jsIndexOf b l → a = b := by
  intro l
  induction l with
  | nil => intro a b _ ha; cases ha
  | cons x t ih =>
    intro a b hnd ha hb heq
    by_cases hxa : x = a
    · by_cases hxb : x = b
      · rw [← hxa, ← hxb]
      · have hbt : b ∈ t := by
          rcases List.mem_cons.mp hb with h | h
          · exact absurd h.symm hxb
          · exact h
        rw [← hxa] at heq
        rw [jsIndexOf_cons_ne b x t hxb hbt] at heq
        rw [jsIndexOf] at heq
        rw [if_pos rfl] at heq
        have := jsIndexOf_nonneg b t hbt
        omega
    · by_cases hxb : x = b
      · have hat : a ∈ t := by
          rcases List.mem_cons.mp ha with h | h
          · exact absurd h.symm hxa
          · exact h
        rw [← hxb] at heq
        rw [jsIndexOf_cons_ne a x t hxa hat] at heq
        rw [jsIndexOf] at heq
        rw [if_pos rfl] at heq
        have := jsIndexOf_nonneg a t hat
        omega
      · have hat : a ∈ t := by
          rcases List.mem_cons.mp ha with h | h
          · exact absurd h.symm hxa
          · exact h
        have hbt : b ∈ t := by
          rcases List.mem_cons.mp hb with h | h
          · exact absurd h.symm hxb
          · exact h
        rw [jsIndexOf_cons_ne a x t hxa hat, jsIndexOf_cons_ne b x t hxb hbt] at heq
        exact ih a b (List.Nodup.of_cons hnd) hat hbt (by omega)

theorem pairwise_jsIndexOf_lt {α : Type} [DecidableEq α] :
    ∀ (l : List α), l.Nodup → l.Pairwise (fun a b => jsIndexOf a l < jsIndexOf b l) := by
  intro l
  induction l with
  | nil => exact fun _ => List.Pairwise.nil
  | cons x t ih =>
    intro hnd
    have hndt : t.Nodup := List.Nodup.of_cons hnd
    have hxt : x ∉ t := by
      rcases List.nodup_cons.mp hnd with ⟨h, _⟩
      exact h
    refine List.pairwise_cons.mpr ⟨?_, ?_⟩
    · intro b hb
      have hxb : x ≠ b := fun h => hxt (h ▸ hb)
      rw [jsIndexOf_cons_ne b x t hxb hb]
      rw [jsIndexOf, if_pos rfl]
      have := jsIndexOf_nonneg b t hb
      omega
    · refine List.Pairwise.imp_of_mem ?_ (ih hndt)
      intro a b ha hb hlt
      have hxa : x ≠ a := fun h => hxt (h ▸ ha)
      have hxb : x ≠ b := fun h => hxt (h ▸ hb)
      rw [jsIndexOf_cons_ne a x t hxa ha, jsIndexOf_cons_ne b x t hxb hb]
      omega

theorem eq_of_perm_pairwise_le {le : String → String → Prop} :
    ∀ (l₁ l₂ : List String), l₁.Perm l₂ → l₁.Pairwise le → l₂.Pairwise le →
      (∀ a ∈ l₁, ∀ b ∈ l₁, a ≠ b → le a b → le b a → False) → l₁ = l₂ := by
  intro l₁
  induction l₁ with
  | nil =>
    intro l₂ hp _ _ _
    cases l₂ with
    | nil => rfl
    | cons b t => exact absurd hp.length_eq (by simp)
  | cons a t₁ ih =>
    intro l₂ hp hpw₁ hpw₂ hanti
    cases l₂ with
    | nil => exact absurd hp.symm (by simp)
    | cons b t₂ =>
      by_cases hab : a = b
      · subst hab
        have hpt : t₁.Perm t₂ := List.Perm.cons_inv hp
        have := ih t₂ hpt (List.pairwise_cons.mp hpw₁).2 (List.pairwise_cons.mp hpw₂).2
          (fun x hx y hy => hanti x (List.mem_cons_of_mem a hx) y (List.mem_cons_of_mem a hy))
        rw [this]
      · exfalso
        have hbmem : b ∈ a :: t₁ := hp.symm.subset (List.mem_cons_self b t₂)
        have hbt₁ : b ∈ t₁ := by
          rcases List.mem_cons.mp hbmem with h | h
          · exact absurd h.symm hab
          · exact h
        have hamem : a ∈ b :: t₂ := hp.subset (List.mem_cons_self a t₁)
        have hat₂ : a ∈ t₂ := by
          rcases List.mem_cons.mp hamem with h | h
          · exact absurd h hab
          · exact h
        have hle₁ : le a b := (List.pairwise_cons.mp hpw₁).1 b hbt₁
        have hle₂ : le b a := (List.pairwise_cons.mp hpw₂).1 a hat₂
        exact hanti a (List.mem_cons_self a t₁) b (List.mem_cons_of_mem a hbt₁) hab hle₁ hle₂

theorem specialCmpLe_trans (specialOrder : List String) :
    ∀ a b c, specialCmpLe specialOrder a b = true → specialCmpLe specialOrder b c = true →
      specialCmpLe specialOrder a c = true := by
  intro a b c hab hbc
  simp [specialCmpLe] at hab hbc ⊢
  omega

theorem specialCmpLe_total (specialOrder : List String) :
    ∀ a b, (specialCmpLe specialOrder a b || specialCmpLe specialOrder b a) = true := by
  intro a b
  simp [specialCmpLe]
  omega

theorem sorted_special_eq_filter (allPersonas specialOrder : List String)
    (hA : allPersonas.Nodup) (hS : specialOrder.Nodup) :
    (allPersonas.filter (fun p => specialOrder.contains p)).mergeSort
        (specialCmpLe specialOrder) =
      specialOrder.filter (fun s => allPersonas.contains s) := by
  set s₁ := (allPersonas.filter (fun p => specialOrder.contains p)).mergeSort
    (specialCmpLe specialOrder) with hs₁
  set s₂ := specialOrder.filter (fun s => allPersonas.contains s) with hs₂
  have hperm₁ : s₁.Perm (allPersonas.filter (fun p => specialOrder.contains p)) :=
    List.mergeSort_perm _ _
  have hnd₁ : s₁.Nodup := hperm₁.symm.nodup (List.Nodup.filter _ hA)
  have hnd₂ : s₂.Nodup := List.Nodup.filter _ hS
  have hmemiff : ∀ x, x ∈ s₁ ↔ x ∈ s₂ := by
    intro x
    rw [hs₁, hs₂]
    constructor
    · intro hx
      have := hperm₁.subset hx
      rw [List.mem_filter] at this
      rw [List.mem_filter]
      refine ⟨by simpa using this.2, by simpa using this.1⟩
    · intro hx
      rw [List.mem_filter] at hx
      apply hperm₁.symm.subset
      rw [List.mem_filter]
      refine ⟨by simpa using hx.2, by simpa using hx.1⟩
  have hperm : s₁.Perm s₂ := (List.perm_ext_iff_of_nodup hnd₁ hnd₂).mpr hmemiff
  have hpw₁ : s₁.Pairwise (fun a b => specialCmpLe specialOrder a b = true) :=
    List.sorted_mergeSort (specialCmpLe_trans specialOrder) (specialCmpLe_total specialOrder) _
  have hpw₂ : s₂.Pairwise (fun a b => specialCmpLe specialOrder a b = true) := by
    have hlt := pairwise_jsIndexOf_lt specialOrder hS
    have := List.Pairwise.filter (fun s => allPersonas.contains s) hlt
    refine this.imp ?_
    intro a b hab
    simp [specialCmpLe]
    omega
  refine eq_of_perm_pairwise_le s₁ s₂ hperm hpw₁ hpw₂ ?_
  intro a ha b hb hne hab hba
  have haS : a ∈ specialOrder := by
    have := (hmemiff a).mp ha
    rw [hs₂, List.mem_filter] at this
    exact this.1
  have hbS : b ∈ specialOrder := by
    have := (hmemiff b).mp hb
    rw [hs₂, List.mem_filter] at this
    exact this.1
  simp [specialCmpLe] at hab hba
  exact hne (jsIndexOf_inj specialOrder a b hS haS hbS (by omega))

/-- C2: for duplicate-free persona and special-order lists, the rotation
list built by `shufflePersonas` is a permutation of the persona set in
which every persona appears exactly once, all regular personas come first
(in some shuffled order), and the special personas follow, exactly once
each, in their configured relative order. -/
theorem shuffle_rotation_spec (rand : Nat → Nat) (allPersonas specialOrder : List String)
    (hA : allPersonas.Nodup) (hS : specialOrder.Nodup) :
    (shufflePersonas rand allPersonas specialOrder).Perm allPersonas ∧
    (∀ p ∈ allPersonas, (shufflePersonas rand allPersonas specialOrder).count p = 1) ∧
    ∃ reg, shufflePersonas rand allPersonas specialOrder =
        reg ++ specialOrder.filter (fun s => allPersonas.contains s) ∧
      reg.Perm (allPersonas.filter (fun p => !specialOrder.contains p)) ∧
      ∀ p ∈ reg, specialOrder.contains p = false := by
  have hsorted := sorted_special_eq_filter allPersonas specialOrder hA hS
  have hregperm : (fyShuffle rand (allPersonas.filter (fun p => !specialOrder.contains p))).Perm
      (allPersonas.filter (fun p => !specialOrder.contains p)) :=
    fyShuffle_perm rand _
  have hsplit : ((allPersonas.filter (fun p => specialOrder.contains p)) ++
      (allPersonas.filter (fun p => !specialOrder.contains p))).Perm allPersonas :=
    List.filter_append_perm _ allPersonas
  have hperm : (shufflePersonas rand allPersonas specialOrder).Perm allPersonas := by
    unfold shufflePersonas
    exact ((List.Perm.append hregperm (List.mergeSort_perm _ _)).trans
      List.perm_append_comm).trans hsplit
  refine ⟨hperm, ?_, ?_⟩
  · intro p hp
    rw [hperm.count_eq p]
    exact List.count_eq_one_of_mem hA hp
  · refine ⟨fyShuffle rand (allPersonas.filter (fun p => !specialOrder.contains p)), ?_, hregperm, ?_⟩
    · show fyShuffle rand (allPersonas.filter (fun p => !specialOrder.contains p)) ++
        (allPersonas.filter (fun p => specialOrder.contains p)).mergeSort
          (specialCmpLe specialOrder) =
        fyShuffle rand (allPersonas.filter (fun p => !specialOrder.contains p)) ++
        specialOrder.filter (fun s => allPersonas.contains s)
      rw [hsorted]
    · intro p hp
      have := hregperm.subset hp
      rw [List.mem_filter] at this
      simpa using this.2

/-- Witness for C2 at a concrete persona set with two special personas. -/
theorem shuffle_rotation_spec_witness :
    (shufflePersonas (fun _ => 0)
        ["alice.txt", "bob.txt", "moderator.txt", "secretary.txt"]
        ["moderator.txt", "secretary.txt"]).Perm
      ["alice.txt", "bob.txt", "moderator.txt", "secretary.txt"] ∧
    (∀ p ∈ ["alice.txt", "bob.txt", "moderator.txt", "secretary.txt"],
      (shufflePersonas (fun _ => 0)
        ["alice.txt", "bob.txt", "moderator.txt", "secretary.txt"]
        ["moderator.txt", "secretary.txt"]).count p = 1) ∧
    ∃ reg, shufflePersonas (fun _ => 0)
        ["alice.txt", "bob.txt", "moderator.txt", "secretary.txt"]
        ["moderator.txt", "secretary.txt"] =
        reg ++ (["moderator.txt", "secretary.txt"].filter
          (fun s => (["alice.txt", "bob.txt", "moderator.txt", "secretary.txt"] : List String).contains s)) ∧
      reg.Perm ((["alice.txt", "bob.txt", "moderator.txt", "secretary.txt"] : List String).filter
        (fun p => !(["moderator.txt", "secretary.txt"] : List String).contains p)) ∧
      ∀ p ∈ reg, (["moderator.txt", "secretary.txt"] : List String).contains p = false :=
  shuffle_rotation_spec (fun _ => 0)
    ["alice.txt", "bob.txt", "moderator.txt", "secretary.txt"]
    ["moderator.txt", "secretary.txt"] (by decide) (by decide)

end Loopy
